import Mathlib

/-!
Verification of the street-navigation repository: the `Graph` data structure
(graph.py), Dijkstra search (dijkstra.py) and A* search (astar.py) are embedded
as executable Lean definitions, and the spec's claims about them are settled.

Modelling conventions:
* Python floats are modelled as exact rationals `ℚ`; `float('inf')` is the top
  element of `Cost := WithTop ℚ`.
* Python dicts keyed by node id are modelled either as association lists
  (`Graph.nodes`, `Graph.edges`, preserving insertion order) or, for the
  per-search working maps, as total functions `String → _` (the KeyError on a
  key absent from the dict cannot fire on graphs built through the API, see the
  closure theorem for `add_edge`).
* `heapq` on `(float, str)` tuples pops the lexicographically least tuple;
  it is modelled by `heappop`, which removes one occurrence of the least entry.
* `math.sqrt` is modelled by `Rat.sqrt`, which agrees with the real square root
  on perfect squares; the concrete scenarios below only depend on heuristic
  values in ranges where this modelling and float sqrt coincide.
-/

namespace Nav

/-- Cost values: rationals extended with `+infinity`. -/
abbrev Cost := WithTop ℚ

/-- graph.py `Node`: id, coordinates (heuristic input), display name. -/
structure Node where
  id : String
  x : ℚ
  y : ℚ
  name : String
deriving DecidableEq, Repr

/-- graph.py `Edge`: directed weighted connection between two node keys. -/
structure Edge where
  from_node : String
  to_node : String
  weight : ℚ
  name : String
deriving DecidableEq, Repr

/-- graph.py `Graph`: insertion-ordered maps node key → Node and
node key → outgoing edge list, modelled as association lists. -/
structure Graph where
  nodes : List (String × Node)
  edges : List (String × List Edge)
deriving DecidableEq, Repr

/-- Association-list lookup (Python dict lookup by key). -/
def lookupA {α : Type} (k : String) : List (String × α) → Option α
  | [] => none
  | p :: ps => if p.1 = k then some p.2 else lookupA k ps

/-- `Graph()`: empty node and edge maps. -/
def Graph.empty : Graph := ⟨[], []⟩

/-- graph.py `Graph.add_node`: insert a fresh node if the key is absent,
otherwise return the stored node and leave the graph unchanged.
The Python `name or node_id` default is the `if name = ""` branch. -/
def Graph.add_node (g : Graph) (node_id : String) (x y : ℚ) (name : String) :
    Node × Graph :=
  match lookupA node_id g.nodes with
  | some n => (n, g)
  | none =>
    let node : Node := ⟨node_id, x, y, if name = "" then node_id else name⟩
    (node, ⟨g.nodes ++ [(node_id, node)], g.edges ++ [(node_id, [])]⟩)

/-- Append an edge to the edge list stored under key `k`
(Python `self.edges[from_node].append(edge)`). -/
def appendEdge (g : Graph) (k : String) (e : Edge) : Graph :=
  ⟨g.nodes, g.edges.map fun p => if p.1 = k then (p.1, p.2 ++ [e]) else p⟩

/-- graph.py `Graph.add_edge`: auto-create missing endpoints as bare nodes,
append the forward edge, and the reverse edge when `bidirectional`. -/
def Graph.add_edge (g : Graph) (from_node to_node : String) (weight : ℚ)
    (name : String) (bidirectional : Bool) : Graph :=
  let g1 := if (lookupA from_node g.nodes).isSome then g
            else (g.add_node from_node 0 0 "").2
  let g2 := if (lookupA to_node g1.nodes).isSome then g1
            else (g1.add_node to_node 0 0 "").2
  let g3 := appendEdge g2 from_node ⟨from_node, to_node, weight, name⟩
  if bidirectional then appendEdge g3 to_node ⟨to_node, from_node, weight, name⟩
  else g3

/-- graph.py `Graph.get_neighbors`: outgoing `(destination, weight)` pairs in
insertion order; `[]` for an unknown key. -/
def Graph.get_neighbors (g : Graph) (node_id : String) : List (String × ℚ) :=
  match lookupA node_id g.edges with
  | none => []
  | some es => es.map fun e => (e.to_node, e.weight)

/-- graph.py `Graph.euclidean_distance`: Euclidean distance between two nodes'
coordinates, `0` when either key is unknown. `math.sqrt` is modelled by
`Rat.sqrt` (exact on perfect squares). -/
def Graph.euclidean_distance (g : Graph) (node1_id node2_id : String) : ℚ :=
  match lookupA node1_id g.nodes, lookupA node2_id g.nodes with
  | some n1, some n2 => Rat.sqrt ((n1.x - n2.x) ^ 2 + (n1.y - n2.y) ^ 2)
  | _, _ => 0

/-- Key membership test `node_id in graph.nodes`. -/
def Graph.hasNode (g : Graph) (k : String) : Bool := (lookupA k g.nodes).isSome

/-- Number of stored directed edges. -/
def Graph.totalEdges (g : Graph) : Nat := (g.edges.map fun p => p.2.length).sum

/-- Priority-queue entries `(priority, node_id)`, as pushed by both searches. -/
abbrev PQ := List (Cost × String)

/-- Python tuple comparison `(d1, n1) < (d2, n2)`: lexicographic. -/
def entryLt (a b : Cost × String) : Bool :=
  decide (a.1 < b.1 ∨ (a.1 = b.1 ∧ a.2 < b.2))

/-- Least entry of `x :: l` under the tuple order (ties keep the earlier-seen
entry; tied entries are identical values, so the choice is immaterial). -/
def findMin (x : Cost × String) : List (Cost × String) → Cost × String
  | [] => x
  | y :: ys => findMin (if entryLt y x then y else x) ys

/-- `heapq.heappop`: return the least entry and the queue without one
occurrence of it; `none` on an empty queue. -/
def heappop (pq : PQ) : Option ((Cost × String) × PQ) :=
  match pq with
  | [] => none
  | x :: xs =>
    let m := findMin x xs
    some (m, pq.erase m)

/-- Pointwise update of a working map (Python `d[k] = v`). -/
def setF {α : Type} (f : String → α) (k : String) (v : α) : String → α :=
  fun x => if x = k then v else f x

/-- Shared path reconstruction: follow `previous` from `current`, collecting
nodes, and reverse at the end (the `while current is not None` loop).
Fuel-indexed; `none` models non-termination of the Python loop and is proved
unreachable for the states both searches produce. -/
def reconstruct (previous : String → Option String) :
    Nat → String → List String → Option (List String)
  | 0, _, _ => none
  | fuel + 1, current, path =>
    let path := path ++ [current]
    match previous current with
    | none => some path.reverse
    | some p => reconstruct previous fuel p path

/-! ## Dijkstra (dijkstra.py) -/

/-- Working state of one `dijkstra` call. The graph is carried in the state so
that preservation of the graph by the search is a theorem, not a convention. -/
structure DState where
  graph : Graph
  pq : PQ
  dist : String → Cost
  previous : String → Option String
  visited : List String

/-- Relaxation of one neighbor `(neighbor, weight)` from `current_node` popped
with priority `current_distance` (body of the `for neighbor, weight in ...`
loop in dijkstra.py). -/
def relaxD (current_distance : Cost) (current_node : String) (s : DState)
    (nw : String × ℚ) : DState :=
  let distance := current_distance + (nw.2 : Cost)
  if distance < s.dist nw.1 then
    { s with dist := setF s.dist nw.1 distance,
             previous := setF s.previous nw.1 (some current_node),
             pq := (distance, nw.1) :: s.pq }
  else s

/-- One iteration of dijkstra.py's `while pq` loop. States in which the loop
has exited (empty queue, or the goal was popped and the loop broke — exactly
when the goal is in `visited`) are fixed points. -/
def dstep (endK : String) (s : DState) : DState :=
  if endK ∈ s.visited then s else
  match heappop s.pq with
  | none => s
  | some ((current_distance, current_node), rest) =>
    if current_node ∈ s.visited then { s with pq := rest }
    else
      let s1 : DState := { s with pq := rest, visited := current_node :: s.visited }
      if current_node = endK then s1
      else if s1.dist current_node < current_distance then s1
      else (s1.graph.get_neighbors current_node).foldl
             (relaxD current_distance current_node) s1

/-- Initial dijkstra state: queue `[(0, start)]`, `distances` all `∞` except
`start ↦ 0`, `previous` all `None`, empty visited set. -/
def initD (g : Graph) (start : String) : DState :=
  { graph := g
    pq := [((0 : Cost), start)]
    dist := setF (fun _ => ⊤) start (0 : Cost)
    previous := fun _ => none
    visited := [] }

/-- Iteration bound for the main loop: every iteration pops one entry, and at
most one entry is pushed per stored directed edge plus the initial entry. -/
def dfuel (g : Graph) : Nat := g.totalEdges + 1

/-- The state in which dijkstra.py's main loop exits (`dfuel` iterations
always reach a fixed point; see the termination theorems). -/
def dRun (g : Graph) (start endK : String) : DState :=
  (dstep endK)^[dfuel g] (initD g start)

/-- dijkstra.py `dijkstra`: guard on absent keys, run the loop to its exit
state, then reconstruct unless the goal's best cost is still `∞`. -/
def dijkstra (g : Graph) (start endK : String) : Option (List String) × Cost :=
  if !g.hasNode start || !g.hasNode endK then (none, ⊤)
  else
    let sf := dRun g start endK
    if sf.dist endK = ⊤ then (none, ⊤)
    else (reconstruct sf.previous (g.nodes.length + 1) endK [], sf.dist endK)

/-! ## A* (astar.py) -/

/-- Working state of one `astar` call. -/
structure AState where
  graph : Graph
  pq : PQ
  g_score : String → Cost
  f_score : String → Cost
  previous : String → Option String
  visited : List String

/-- Relaxation of one neighbor in astar.py: visited neighbors are skipped, the
tentative g-score is computed from the current node's stored g-score, and on
improvement the f-score `g + h` is pushed. -/
def relaxA (h : String → ℚ) (current_node : String) (s : AState)
    (nw : String × ℚ) : AState :=
  if nw.1 ∈ s.visited then s else
  let tentative := s.g_score current_node + (nw.2 : Cost)
  if tentative < s.g_score nw.1 then
    { s with previous := setF s.previous nw.1 (some current_node),
             g_score := setF s.g_score nw.1 tentative,
             f_score := setF s.f_score nw.1 (tentative + (h nw.1 : Cost)),
             pq := (tentative + (h nw.1 : Cost), nw.1) :: s.pq }
  else s

/-- One iteration of astar.py's `while pq` loop (no stale-entry distance check;
exited states are fixed points as in `dstep`). -/
def astep (h : String → ℚ) (endK : String) (s : AState) : AState :=
  if endK ∈ s.visited then s else
  match heappop s.pq with
  | none => s
  | some ((_, current_node), rest) =>
    if current_node ∈ s.visited then { s with pq := rest }
    else
      let s1 : AState := { s with pq := rest, visited := current_node :: s.visited }
      if current_node = endK then s1
      else (s1.graph.get_neighbors current_node).foldl (relaxA h current_node) s1

/-- Initial astar state: queue `[(h(start), start)]`, `g_score` all `∞` except
`start ↦ 0`, `f_score` all `∞` except `start ↦ h(start)`. -/
def initA (g : Graph) (h : String → ℚ) (start : String) : AState :=
  { graph := g
    pq := [((h start : Cost), start)]
    g_score := setF (fun _ => ⊤) start (0 : Cost)
    f_score := setF (fun _ => ⊤) start ((h start : Cost))
    previous := fun _ => none
    visited := [] }

/-- The state in which astar.py's main loop exits, for heuristic `h`. -/
def aRun (g : Graph) (h : String → ℚ) (start endK : String) : AState :=
  (astep h endK)^[dfuel g] (initA g h start)

/-- astar.py `astar`: Euclidean heuristic to the goal, same guard, loop and
reconstruction shape as `dijkstra` but over g/f-scores. -/
def astar (g : Graph) (start endK : String) : Option (List String) × Cost :=
  if !g.hasNode start || !g.hasNode endK then (none, ⊤)
  else
    let h := fun node_id => g.euclidean_distance node_id endK
    let sf := aRun g h start endK
    if sf.g_score endK = ⊤ then (none, ⊤)
    else (reconstruct sf.previous (g.nodes.length + 1) endK [], sf.g_score endK)

/-! ## Graph construction sequences (for the API-closure claims) -/

/-- A single construction call on a graph. -/
inductive BuildOp where
  | addNode (node_id : String) (x y : ℚ) (name : String)
  | addEdge (from_node to_node : String) (weight : ℚ) (name : String)
      (bidirectional : Bool)

/-- Apply one construction call. -/
def applyOp (g : Graph) : BuildOp → Graph
  | .addNode i x y n => (g.add_node i x y n).2
  | .addEdge f t w n b => g.add_edge f t w n b

/-- A graph built solely through `add_node` / `add_edge` calls. -/
def buildGraph (ops : List BuildOp) : Graph := ops.foldl applyOp Graph.empty

/-- The spec's 4-node diamond scenario, built through the API. -/
def diamond : Graph := buildGraph
  [ .addNode "A" 0 0 "A", .addNode "B" 1 1 "B",
    .addNode "C" 1 (-1) "C", .addNode "D" 2 0 "D",
    .addEdge "A" "B" 1 "" true, .addEdge "A" "C" 2 "" true,
    .addEdge "B" "D" 3 "" true, .addEdge "C" "D" 1 "" true ]

/-- A line graph whose edge weights undercut the straight-line distances, so
the Euclidean heuristic is inadmissible: S(0,0) — M(5,0) — G(10,0) with
S–M = 1, M–G = 1 and a direct S–G = 3. -/
def lineCE : Graph := buildGraph
  [ .addNode "S" 0 0 "S", .addNode "M" 5 0 "M", .addNode "G" 10 0 "G",
    .addEdge "S" "M" 1 "" true, .addEdge "M" "G" 1 "" true,
    .addEdge "S" "G" 3 "" true ]

/-! ## Basic lemmas: association lists and map updates -/

theorem lookupA_append_of_none {α : Type} {k : String} {l1 : List (String × α)}
    (l2 : List (String × α)) (h : lookupA k l1 = none) :
    lookupA k (l1 ++ l2) = lookupA k l2 := by
  induction l1 with
  | nil => rfl
  | cons p ps ih =>
    rw [lookupA] at h
    by_cases hp : p.1 = k
    · rw [if_pos hp] at h
      exact absurd h (by simp)
    · rw [if_neg hp] at h
      rw [List.cons_append, lookupA, if_neg hp]
      exact ih h

theorem lookupA_append_of_some {α : Type} {k : String} {l1 : List (String × α)}
    {v : α} (l2 : List (String × α)) (h : lookupA k l1 = some v) :
    lookupA k (l1 ++ l2) = some v := by
  induction l1 with
  | nil => simp [lookupA] at h
  | cons p ps ih =>
    rw [lookupA] at h
    by_cases hp : p.1 = k
    · rw [if_pos hp] at h
      rw [List.cons_append, lookupA, if_pos hp]
      exact h
    · rw [if_neg hp] at h
      rw [List.cons_append, lookupA, if_neg hp]
      exact ih h

theorem lookupA_isSome_append {α : Type} {k : String} {l1 : List (String × α)}
    (l2 : List (String × α)) (h : (lookupA k l1).isSome = true) :
    (lookupA k (l1 ++ l2)).isSome = true := by
  obtain ⟨v, hv⟩ := Option.isSome_iff_exists.mp h
  rw [lookupA_append_of_some l2 hv]
  rfl

theorem lookupA_singleton_self {α : Type} {k : String} {v : α} :
    lookupA k [(k, v)] = some v := by
  simp [lookupA]

theorem setF_same {α : Type} (f : String → α) (k : String) (v : α) :
    setF f k v k = v := by
  simp [setF]

theorem setF_other {α : Type} (f : String → α) {k x : String} (v : α)
    (h : x ≠ k) : setF f k v x = f x := by
  simp [setF, h]

/-! ## Basic lemmas: the priority queue -/

/-- Propositional form of the strict tuple order. -/
def entLT (a b : Cost × String) : Prop := a.1 < b.1 ∨ (a.1 = b.1 ∧ a.2 < b.2)

theorem entryLt_eq_true_iff {a b : Cost × String} :
    entryLt a b = true ↔ entLT a b := by
  simp [entryLt, entLT]

theorem entLT_irrefl (a : Cost × String) : ¬ entLT a a := by
  simp [entLT]

theorem not_entLT_total {a b : Cost × String} (hab : ¬ entLT a b)
    (hba : ¬ entLT b a) : a = b := by
  simp only [entLT, not_or, not_and] at hab hba
  obtain ⟨h1, h2⟩ := hab
  obtain ⟨h3, h4⟩ := hba
  have he : a.1 = b.1 := le_antisymm (not_lt.mp h3) (not_lt.mp h1)
  have hs : a.2 = b.2 := le_antisymm (not_lt.mp (h4 he.symm)) (not_lt.mp (h2 he))
  exact Prod.ext he hs

theorem not_entLT_trans {a b c : Cost × String} (hab : ¬ entLT b a)
    (hbc : ¬ entLT c b) : ¬ entLT c a := by
  simp only [entLT, not_or, not_and, not_lt] at hab hbc ⊢
  obtain ⟨h1, h2⟩ := hab
  obtain ⟨h3, h4⟩ := hbc
  refine ⟨le_trans h1 h3, fun he => ?_⟩
  have hb : b.1 = a.1 := le_antisymm (h3.trans he.le) h1
  exact le_trans (h2 hb) (h4 (he.trans hb.symm))

theorem entLT_trans {a b c : Cost × String} (hab : entLT a b)
    (hbc : entLT b c) : entLT a c := by
  rcases hab with h1 | ⟨h1, h1s⟩ <;> rcases hbc with h2 | ⟨h2, h2s⟩
  · exact Or.inl (lt_trans h1 h2)
  · exact Or.inl (h2 ▸ h1)
  · exact Or.inl (h1 ▸ h2)
  · exact Or.inr ⟨h1.trans h2, lt_trans h1s h2s⟩

theorem findMin_spec (x : Cost × String) (l : List (Cost × String)) :
    findMin x l ∈ x :: l ∧ ∀ y ∈ x :: l, ¬ entLT y (findMin x l) := by
  induction l generalizing x with
  | nil =>
    refine ⟨List.mem_singleton.mpr rfl, ?_⟩
    intro y hy
    rw [List.mem_singleton.mp hy]
    exact entLT_irrefl _
  | cons z zs ih =>
    simp only [findMin]
    by_cases h : entryLt z x = true
    · rw [if_pos h]
      obtain ⟨hmem, hmin⟩ := ih z
      constructor
      · rcases List.mem_cons.mp hmem with h1 | h1
        · rw [h1]
          exact List.mem_cons_of_mem _ (List.mem_cons_self _ _)
        · exact List.mem_cons_of_mem _ (List.mem_cons_of_mem _ h1)
      · intro y hy
        rcases List.mem_cons.mp hy with rfl | hy2
        · exact fun hym => hmin z (List.mem_cons_self _ _)
            (entLT_trans (entryLt_eq_true_iff.mp h) hym)
        · exact hmin y hy2
    · rw [if_neg h]
      obtain ⟨hmem, hmin⟩ := ih x
      constructor
      · rcases List.mem_cons.mp hmem with h1 | h1
        · rw [h1]
          exact List.mem_cons_self _ _
        · exact List.mem_cons_of_mem _ (List.mem_cons_of_mem _ h1)
      · intro y hy
        rcases List.mem_cons.mp hy with rfl | hy2
        · exact hmin y (List.mem_cons_self _ _)
        · rcases List.mem_cons.mp hy2 with rfl | hy3
          · exact not_entLT_trans (hmin x (List.mem_cons_self _ _))
              (fun q => absurd (entryLt_eq_true_iff.mpr q) (by simpa using h))
          · exact hmin y (List.mem_cons_of_mem _ hy3)

theorem heappop_none_iff {pq : PQ} : heappop pq = none ↔ pq = [] := by
  cases pq <;> simp [heappop]

theorem heappop_some {pq : PQ} {m : Cost × String} {rest : PQ}
    (h : heappop pq = some (m, rest)) :
    m ∈ pq ∧ rest = pq.erase m ∧ ∀ y ∈ pq, ¬ entLT y m := by
  cases pq with
  | nil => simp [heappop] at h
  | cons x xs =>
    simp only [heappop, Option.some.injEq, Prod.mk.injEq] at h
    obtain ⟨h1, h2⟩ := h
    subst h1
    exact ⟨(findMin_spec x xs).1, h2.symm, (findMin_spec x xs).2⟩

theorem lookupA_mem {α : Type} {k : String} {l : List (String × α)} {v : α}
    (h : lookupA k l = some v) : (k, v) ∈ l := by
  induction l with
  | nil => simp [lookupA] at h
  | cons p ps ih =>
    rw [lookupA] at h
    by_cases hp : p.1 = k
    · rw [if_pos hp] at h
      have hpv : p = (k, v) := Prod.ext hp (Option.some.inj h)
      rw [← hpv]
      exact List.mem_cons_self _ _
    · rw [if_neg hp] at h
      exact List.mem_cons_of_mem _ (ih h)

theorem not_entLT_fst {y m : Cost × String} (h : ¬ entLT y m) : m.1 ≤ y.1 := by
  simp only [entLT, not_or] at h
  exact not_lt.mp h.1

theorem rest_subset {pq : PQ} {m : Cost × String} {rest : PQ}
    (h : heappop pq = some (m, rest)) : ∀ y ∈ rest, y ∈ pq := by
  intro y hy
  rw [(heappop_some h).2.1] at hy
  exact List.erase_subset _ _ hy

theorem mem_rest_of_ne {pq : PQ} {m : Cost × String} {rest : PQ}
    (h : heappop pq = some (m, rest)) {y : Cost × String} (hy : y ∈ pq)
    (hne : y ≠ m) : y ∈ rest := by
  rw [(heappop_some h).2.1]
  exact (List.mem_erase_of_ne hne).mpr hy

theorem rest_length {pq : PQ} {m : Cost × String} {rest : PQ}
    (h : heappop pq = some (m, rest)) : rest.length + 1 = pq.length := by
  rw [(heappop_some h).2.1, List.length_erase_of_mem (heappop_some h).1]
  have : 0 < pq.length := List.length_pos.mpr (List.ne_nil_of_mem (heappop_some h).1)
  omega

/-- Preservation of a predicate along iterates of a step function. -/
theorem iterate_pres {α : Type} (f : α → α) (P : α → Prop)
    (h : ∀ a, P a → P (f a)) : ∀ n a, P a → P (f^[n] a) := by
  intro n
  induction n with
  | zero => intro a ha; simpa using ha
  | succ n ih =>
    intro a ha
    rw [Function.iterate_succ_apply]
    exact ih (f a) (h a ha)

/-! ## The search never touches the graph (frame lemmas) -/

theorem relaxD_graph (d : Cost) (u : String) (s : DState) (nw : String × ℚ) :
    (relaxD d u s nw).graph = s.graph := by
  rw [relaxD]
  split <;> rfl

theorem foldl_relaxD_graph (d : Cost) (u : String) :
    ∀ (l : List (String × ℚ)) (s : DState),
      (l.foldl (relaxD d u) s).graph = s.graph := by
  intro l
  induction l with
  | nil => intro s; rfl
  | cons nw l ih =>
    intro s
    rw [List.foldl_cons, ih, relaxD_graph]

theorem dstep_graph (e : String) (s : DState) : (dstep e s).graph = s.graph := by
  rw [dstep]
  split
  · rfl
  split
  · rfl
  split
  · rfl
  dsimp only
  split
  · rfl
  split
  · rfl
  · exact foldl_relaxD_graph _ _ _ _

theorem relaxA_graph (h : String → ℚ) (u : String) (s : AState) (nw : String × ℚ) :
    (relaxA h u s nw).graph = s.graph := by
  rw [relaxA]
  split
  · rfl
  dsimp only
  split <;> rfl

theorem foldl_relaxA_graph (h : String → ℚ) (u : String) :
    ∀ (l : List (String × ℚ)) (s : AState),
      (l.foldl (relaxA h u) s).graph = s.graph := by
  intro l
  induction l with
  | nil => intro s; rfl
  | cons nw l ih =>
    intro s
    rw [List.foldl_cons, ih, relaxA_graph]

theorem astep_graph (h : String → ℚ) (e : String) (s : AState) :
    (astep h e s).graph = s.graph := by
  rw [astep]
  split
  · rfl
  split
  · rfl
  split
  · rfl
  dsimp only
  split
  · rfl
  · exact foldl_relaxA_graph _ _ _ _

theorem iterate_dstep_graph (e : String) (n : Nat) (s : DState) :
    ((dstep e)^[n] s).graph = s.graph := by
  induction n generalizing s with
  | zero => rfl
  | succ n ih => rw [Function.iterate_succ_apply, ih, dstep_graph]

theorem iterate_astep_graph (h : String → ℚ) (e : String) (n : Nat) (s : AState) :
    ((astep h e)^[n] s).graph = s.graph := by
  induction n generalizing s with
  | zero => rfl
  | succ n ih => rw [Function.iterate_succ_apply, ih, astep_graph]

/-! ## Graphs built through the API: closure invariants -/

/-- Every stored edge's destination key is a key of the node map. -/
def DestClosed (g : Graph) : Prop :=
  ∀ p ∈ g.edges, ∀ e ∈ p.2, g.hasNode e.to_node = true

/-- The node map and the edge map have exactly the same keys. -/
def SameKeys (g : Graph) : Prop :=
  ∀ q, (lookupA q g.nodes).isSome = (lookupA q g.edges).isSome

/-- All stored weights are non-negative: the documented precondition of both
search algorithms (negative weights are out of the spec's scope). -/
def NonnegW (g : Graph) : Prop := ∀ p ∈ g.edges, ∀ e ∈ p.2, 0 ≤ e.weight

instance (g : Graph) : Decidable (DestClosed g) := by
  unfold DestClosed
  infer_instance

instance (g : Graph) : Decidable (NonnegW g) := by
  unfold NonnegW
  infer_instance

theorem lookupA_isSome_modify {α : Type} (k q : String) (f : α → α) :
    ∀ l : List (String × α),
      (lookupA q (l.map fun p => if p.1 = k then (p.1, f p.2) else p)).isSome =
        (lookupA q l).isSome := by
  intro l
  induction l with
  | nil => rfl
  | cons p ps ih =>
    simp only [List.map_cons]
    by_cases hpk : p.1 = k
    · rw [if_pos hpk, lookupA, lookupA]
      by_cases hpq : p.1 = q
      · simp [hpq]
      · rw [if_neg hpq, if_neg hpq]
        exact ih
    · rw [if_neg hpk, lookupA, lookupA]
      by_cases hpq : p.1 = q
      · simp [hpq]
      · rw [if_neg hpq, if_neg hpq]
        exact ih

theorem appendEdge_nodes (g : Graph) (k : String) (e : Edge) :
    (appendEdge g k e).nodes = g.nodes := rfl

theorem appendEdge_hasNode (g : Graph) (k : String) (e : Edge) (q : String) :
    (appendEdge g k e).hasNode q = g.hasNode q := rfl

theorem SameKeys_appendEdge {g : Graph} (hg : SameKeys g) (k : String) (e : Edge) :
    SameKeys (appendEdge g k e) := by
  intro q
  show (lookupA q g.nodes).isSome =
    (lookupA q (g.edges.map fun p => if p.1 = k then (p.1, p.2 ++ [e]) else p)).isSome
  rw [hg q]
  exact (lookupA_isSome_modify k q (· ++ [e]) g.edges).symm

theorem DestClosed_appendEdge {g : Graph} (hg : DestClosed g) {k : String}
    {e : Edge} (he : g.hasNode e.to_node = true) :
    DestClosed (appendEdge g k e) := by
  intro p' hp' e' he'
  obtain ⟨p, hp, hpe⟩ := List.mem_map.mp hp'
  rw [appendEdge_hasNode]
  by_cases hpk : p.1 = k
  · rw [if_pos hpk] at hpe
    rw [← hpe] at he'
    rcases List.mem_append.mp he' with h1 | h1
    · exact hg p hp e' h1
    · rw [List.mem_singleton.mp h1]
      exact he
  · rw [if_neg hpk] at hpe
    rw [← hpe] at he'
    exact hg p hp e' he'

theorem NonnegW_appendEdge {g : Graph} (hg : NonnegW g) {k : String}
    {e : Edge} (he : 0 ≤ e.weight) : NonnegW (appendEdge g k e) := by
  intro p' hp' e' he'
  obtain ⟨p, hp, hpe⟩ := List.mem_map.mp hp'
  by_cases hpk : p.1 = k
  · rw [if_pos hpk] at hpe
    rw [← hpe] at he'
    rcases List.mem_append.mp he' with h1 | h1
    · exact hg p hp e' h1
    · rw [List.mem_singleton.mp h1]
      exact he
  · rw [if_neg hpk] at hpe
    rw [← hpe] at he'
    exact hg p hp e' he'

theorem add_node_present {g : Graph} {k : String} {nd : Node} (x y : ℚ)
    (n : String) (h : lookupA k g.nodes = some nd) :
    g.add_node k x y n = (nd, g) := by
  rw [Graph.add_node, h]

theorem add_node_hasNode_self (g : Graph) (k : String) (x y : ℚ) (n : String) :
    (g.add_node k x y n).2.hasNode k = true := by
  rw [Graph.add_node]
  cases hl : lookupA k g.nodes with
  | some nd => simp [Graph.hasNode, hl]
  | none =>
    simp only [Graph.hasNode]
    rw [lookupA_append_of_none _ hl, lookupA_singleton_self]
    rfl

theorem add_node_hasNode_mono {g : Graph} {q : String} (k : String) (x y : ℚ)
    (n : String) (h : g.hasNode q = true) :
    (g.add_node k x y n).2.hasNode q = true := by
  rw [Graph.add_node]
  cases hl : lookupA k g.nodes with
  | some nd => exact h
  | none =>
    simp only [Graph.hasNode] at h ⊢
    exact lookupA_isSome_append _ h

theorem SameKeys_add_node {g : Graph} (hg : SameKeys g) (k : String)
    (x y : ℚ) (n : String) : SameKeys (g.add_node k x y n).2 := by
  rw [Graph.add_node]
  cases hl : lookupA k g.nodes with
  | some nd => exact hg
  | none =>
    intro q
    show (lookupA q (g.nodes ++ _)).isSome = (lookupA q (g.edges ++ _)).isSome
    cases hq : lookupA q g.nodes with
    | some v =>
      have h2 : (lookupA q g.edges).isSome = true := by
        rw [← hg q, hq]
        rfl
      obtain ⟨w, hw⟩ := Option.isSome_iff_exists.mp h2
      rw [lookupA_append_of_some _ hq, lookupA_append_of_some _ hw]
      rfl
    | none =>
      have h2 : lookupA q g.edges = none := by
        have h3 := hg q
        rw [hq] at h3
        exact Option.not_isSome_iff_eq_none.mp (by rw [← h3]; simp)
      rw [lookupA_append_of_none _ hq, lookupA_append_of_none _ h2]
      by_cases hkq : k = q <;> simp [lookupA, hkq]

theorem DestClosed_add_node {g : Graph} (hg : DestClosed g) (k : String)
    (x y : ℚ) (n : String) : DestClosed (g.add_node k x y n).2 := by
  rw [Graph.add_node]
  cases hl : lookupA k g.nodes with
  | some nd => exact hg
  | none =>
    intro p hp e he
    rcases List.mem_append.mp hp with h1 | h1
    · have h2 := hg p h1 e he
      simp only [Graph.hasNode] at h2 ⊢
      exact lookupA_isSome_append _ h2
    · rw [List.mem_singleton.mp h1] at he
      simp at he

theorem NonnegW_add_node {g : Graph} (hg : NonnegW g) (k : String) (x y : ℚ)
    (n : String) : NonnegW (g.add_node k x y n).2 := by
  rw [Graph.add_node]
  cases hl : lookupA k g.nodes with
  | some nd => exact hg
  | none =>
    intro p hp e he
    rcases List.mem_append.mp hp with h1 | h1
    · exact hg p h1 e he
    · rw [List.mem_singleton.mp h1] at he
      simp at he

theorem add_edge_invs {g : Graph} (hS : SameKeys g) (hD : DestClosed g)
    (f t : String) (w : ℚ) (n : String) (b : Bool) :
    SameKeys (g.add_edge f t w n b) ∧ DestClosed (g.add_edge f t w n b) := by
  simp only [Graph.add_edge]
  have step : ∀ (g0 : Graph) (k : String), SameKeys g0 → DestClosed g0 →
      SameKeys (if (lookupA k g0.nodes).isSome then g0 else (g0.add_node k 0 0 "").2) ∧
      DestClosed (if (lookupA k g0.nodes).isSome then g0 else (g0.add_node k 0 0 "").2) ∧
      (if (lookupA k g0.nodes).isSome then g0 else (g0.add_node k 0 0 "").2).hasNode k = true ∧
      ∀ q, g0.hasNode q = true →
        (if (lookupA k g0.nodes).isSome then g0 else (g0.add_node k 0 0 "").2).hasNode q = true := by
    intro g0 k h1 h2
    by_cases hk : (lookupA k g0.nodes).isSome = true
    · rw [if_pos hk]
      exact ⟨h1, h2, hk, fun q hq => hq⟩
    · rw [if_neg hk]
      exact ⟨SameKeys_add_node h1 _ _ _ _, DestClosed_add_node h2 _ _ _ _,
        add_node_hasNode_self _ _ _ _ _, fun q hq => add_node_hasNode_mono _ _ _ _ hq⟩
  obtain ⟨h1S, h1D, h1k, h1m⟩ := step g f hS hD
  obtain ⟨h2S, h2D, h2k, h2m⟩ := step _ t h1S h1D
  have hft := h2m f h1k
  by_cases hb : b = true
  · rw [if_pos hb]
    refine ⟨SameKeys_appendEdge (SameKeys_appendEdge h2S _ _) _ _,
      DestClosed_appendEdge (DestClosed_appendEdge h2D h2k) ?_⟩
    rw [appendEdge_hasNode]
    exact hft
  · rw [if_neg hb]
    exact ⟨SameKeys_appendEdge h2S _ _, DestClosed_appendEdge h2D h2k⟩

theorem add_edge_NonnegW {g : Graph} (hg : NonnegW g) (f t : String) {w : ℚ}
    (n : String) (b : Bool) (hw : 0 ≤ w) : NonnegW (g.add_edge f t w n b) := by
  simp only [Graph.add_edge]
  have step : ∀ (g0 : Graph) (k : String), NonnegW g0 →
      NonnegW (if (lookupA k g0.nodes).isSome then g0 else (g0.add_node k 0 0 "").2) := by
    intro g0 k h1
    by_cases hk : (lookupA k g0.nodes).isSome = true
    · rw [if_pos hk]
      exact h1
    · rw [if_neg hk]
      exact NonnegW_add_node h1 _ _ _ _
  have h2 := step _ t (step g f hg)
  by_cases hb : b = true
  · rw [if_pos hb]
    exact NonnegW_appendEdge (NonnegW_appendEdge h2 hw) hw
  · rw [if_neg hb]
    exact NonnegW_appendEdge h2 hw

theorem buildGraph_invs (ops : List BuildOp) :
    SameKeys (buildGraph ops) ∧ DestClosed (buildGraph ops) := by
  rw [buildGraph]
  have hfold : ∀ (l : List BuildOp) (g : Graph), SameKeys g → DestClosed g →
      SameKeys (l.foldl applyOp g) ∧ DestClosed (l.foldl applyOp g) := by
    intro l
    induction l with
    | nil => exact fun g h1 h2 => ⟨h1, h2⟩
    | cons op l ih =>
      intro g h1 h2
      rw [List.foldl_cons]
      cases op with
      | addNode i x y n =>
        exact ih _ (SameKeys_add_node h1 _ _ _ _) (DestClosed_add_node h2 _ _ _ _)
      | addEdge f t w n b =>
        obtain ⟨hS, hD⟩ := add_edge_invs h1 h2 f t w n b
        exact ih _ hS hD
  exact hfold ops Graph.empty (fun q => rfl) (fun p hp => absurd hp (List.not_mem_nil p))

theorem DestClosed_neighbors {g : Graph} (hg : DestClosed g) {k : String}
    {nw : String × ℚ} (h : nw ∈ g.get_neighbors k) : g.hasNode nw.1 = true := by
  rw [Graph.get_neighbors] at h
  cases hl : lookupA k g.edges with
  | none => rw [hl] at h; simp at h
  | some es =>
    rw [hl] at h
    obtain ⟨e, he, hnw⟩ := List.mem_map.mp h
    rw [← hnw]
    exact hg (k, es) (lookupA_mem hl) e he

theorem NonnegW_neighbors {g : Graph} (hg : NonnegW g) {k : String}
    {nw : String × ℚ} (h : nw ∈ g.get_neighbors k) : 0 ≤ nw.2 := by
  rw [Graph.get_neighbors] at h
  cases hl : lookupA k g.edges with
  | none => rw [hl] at h; simp at h
  | some es =>
    rw [hl] at h
    obtain ⟨e, he, hnw⟩ := List.mem_map.mp h
    rw [← hnw]
    exact hg (k, es) (lookupA_mem hl) e he

/-! ## Termination of the two search loops -/

/-- Remaining relaxation capacity: stored out-edges of keys not yet settled. -/
def pot (g : Graph) (visited : List String) : Nat :=
  ((g.edges.filter fun p => decide (p.1 ∉ visited)).map fun p => p.2.length).sum

/-- Loop measure for dijkstra: queue size plus remaining capacity. -/
def measD (s : DState) : Nat := s.pq.length + pot s.graph s.visited

/-- Loop measure for astar. -/
def measA (s : AState) : Nat := s.pq.length + pot s.graph s.visited

/-- dijkstra's loop has exited: empty queue, or the goal was settled. -/
def isExitD (e : String) (s : DState) : Prop := s.pq = [] ∨ e ∈ s.visited

/-- astar's loop has exited. -/
def isExitA (e : String) (s : AState) : Prop := s.pq = [] ∨ e ∈ s.visited

/-- Length of the stored out-edge list under key `u` (0 when absent). -/
def edgesLenAt (l : List (String × List Edge)) (u : String) : Nat :=
  match lookupA u l with
  | none => 0
  | some es => es.length

theorem get_neighbors_length (g : Graph) (u : String) :
    (g.get_neighbors u).length = edgesLenAt g.edges u := by
  rw [Graph.get_neighbors, edgesLenAt]
  cases lookupA u g.edges <;> simp

theorem pot_filter_mono (u : String) (vis : List String) :
    ∀ l : List (String × List Edge),
      ((l.filter fun p => decide (p.1 ∉ u :: vis)).map fun p => p.2.length).sum ≤
      ((l.filter fun p => decide (p.1 ∉ vis)).map fun p => p.2.length).sum := by
  intro l
  induction l with
  | nil => exact le_refl _
  | cons p ps ih =>
    by_cases h1 : p.1 ∈ vis
    · have c1 : decide (p.1 ∉ vis) = false := by simp [h1]
      have c2 : decide (p.1 ∉ u :: vis) = false := by simp [h1]
      simp only [List.filter_cons, c1, c2, Bool.false_eq_true, if_false]
      exact ih
    · have c1 : decide (p.1 ∉ vis) = true := by simp [h1]
      by_cases h2 : p.1 = u
      · have c2 : decide (p.1 ∉ u :: vis) = false := by simp [h2]
        simp only [List.filter_cons, c1, c2, Bool.false_eq_true, if_false, if_true,
          List.map_cons, List.sum_cons]
        exact le_trans ih (Nat.le_add_left _ _)
      · have c2 : decide (p.1 ∉ u :: vis) = true := by simp [h1, h2]
        simp only [List.filter_cons, c1, c2, if_true, List.map_cons, List.sum_cons]
        exact Nat.add_le_add_left ih _

theorem pot_filter_step (u : String) (vis : List String) (hu : u ∉ vis) :
    ∀ l : List (String × List Edge),
      ((l.filter fun p => decide (p.1 ∉ u :: vis)).map fun p => p.2.length).sum
        + edgesLenAt l u ≤
      ((l.filter fun p => decide (p.1 ∉ vis)).map fun p => p.2.length).sum := by
  intro l
  induction l with
  | nil => simp [edgesLenAt, lookupA]
  | cons p ps ih =>
    by_cases h2 : p.1 = u
    · have c1 : decide (p.1 ∉ vis) = true := by simp [h2, hu]
      have c2 : decide (p.1 ∉ u :: vis) = false := by simp [h2]
      have hlen : edgesLenAt (p :: ps) u = p.2.length := by
        rw [edgesLenAt, lookupA, if_pos h2]
      simp only [List.filter_cons, c1, c2, Bool.false_eq_true, if_false, if_true,
        List.map_cons, List.sum_cons, hlen]
      rw [Nat.add_comm]
      exact Nat.add_le_add_left (pot_filter_mono u vis ps) _
    · have hlen : edgesLenAt (p :: ps) u = edgesLenAt ps u := by
        rw [edgesLenAt, lookupA, if_neg h2, edgesLenAt]
      by_cases h1 : p.1 ∈ vis
      · have c1 : decide (p.1 ∉ vis) = false := by simp [h1]
        have c2 : decide (p.1 ∉ u :: vis) = false := by simp [h1]
        simp only [List.filter_cons, c1, c2, Bool.false_eq_true, if_false, hlen]
        exact ih
      · have c1 : decide (p.1 ∉ vis) = true := by simp [h1]
        have c2 : decide (p.1 ∉ u :: vis) = true := by simp [h1, h2]
        simp only [List.filter_cons, c1, c2, if_true, List.map_cons, List.sum_cons, hlen]
        rw [Nat.add_assoc]
        exact Nat.add_le_add_left ih _

theorem pot_nil (g : Graph) : pot g [] = g.totalEdges := by
  rw [pot, Graph.totalEdges]
  congr 1
  apply congrArg
  apply List.filter_eq_self.mpr
  intro p hp
  simp

theorem relaxD_visited (d : Cost) (u : String) (s : DState) (nw : String × ℚ) :
    (relaxD d u s nw).visited = s.visited := by
  rw [relaxD]
  split <;> rfl

theorem foldl_relaxD_visited (d : Cost) (u : String) :
    ∀ (l : List (String × ℚ)) (s : DState),
      (l.foldl (relaxD d u) s).visited = s.visited := by
  intro l
  induction l with
  | nil => intro s; rfl
  | cons nw l ih => intro s; rw [List.foldl_cons, ih, relaxD_visited]

theorem relaxA_visited (h : String → ℚ) (u : String) (s : AState) (nw : String × ℚ) :
    (relaxA h u s nw).visited = s.visited := by
  rw [relaxA]
  split
  · rfl
  dsimp only
  split <;> rfl

theorem foldl_relaxA_visited (h : String → ℚ) (u : String) :
    ∀ (l : List (String × ℚ)) (s : AState),
      (l.foldl (relaxA h u) s).visited = s.visited := by
  intro l
  induction l with
  | nil => intro s; rfl
  | cons nw l ih => intro s; rw [List.foldl_cons, ih, relaxA_visited]

theorem relaxD_pq_len (d : Cost) (u : String) (s : DState) (nw : String × ℚ) :
    (relaxD d u s nw).pq.length ≤ s.pq.length + 1 := by
  rw [relaxD]
  split
  · exact le_refl _
  · exact Nat.le_succ _

theorem foldl_relaxD_pq_len (d : Cost) (u : String) :
    ∀ (l : List (String × ℚ)) (s : DState),
      (l.foldl (relaxD d u) s).pq.length ≤ s.pq.length + l.length := by
  intro l
  induction l with
  | nil => intro s; simp
  | cons nw l ih =>
    intro s
    rw [List.foldl_cons]
    calc (l.foldl (relaxD d u) (relaxD d u s nw)).pq.length
        ≤ (relaxD d u s nw).pq.length + l.length := ih _
      _ ≤ s.pq.length + 1 + l.length :=
          Nat.add_le_add_right (relaxD_pq_len d u s nw) _
      _ = s.pq.length + (nw :: l).length := by simp [List.length_cons]; ring

theorem relaxA_pq_len (h : String → ℚ) (u : String) (s : AState) (nw : String × ℚ) :
    (relaxA h u s nw).pq.length ≤ s.pq.length + 1 := by
  rw [relaxA]
  split
  · exact Nat.le_succ _
  dsimp only
  split
  · exact le_refl _
  · exact Nat.le_succ _

theorem foldl_relaxA_pq_len (h : String → ℚ) (u : String) :
    ∀ (l : List (String × ℚ)) (s : AState),
      (l.foldl (relaxA h u) s).pq.length ≤ s.pq.length + l.length := by
  intro l
  induction l with
  | nil => intro s; simp
  | cons nw l ih =>
    intro s
    rw [List.foldl_cons]
    calc (l.foldl (relaxA h u) (relaxA h u s nw)).pq.length
        ≤ (relaxA h u s nw).pq.length + l.length := ih _
      _ ≤ s.pq.length + 1 + l.length :=
          Nat.add_le_add_right (relaxA_pq_len h u s nw) _
      _ = s.pq.length + (nw :: l).length := by simp [List.length_cons]; ring

theorem dstep_exit_fixed {e : String} {s : DState} (h : isExitD e s) :
    dstep e s = s := by
  rw [dstep]
  rcases h with h | h
  · by_cases he : e ∈ s.visited
    · rw [if_pos he]
    · rw [if_neg he, h]
      rfl
  · rw [if_pos h]

theorem astep_exit_fixed {hf : String → ℚ} {e : String} {s : AState}
    (h : isExitA e s) : astep hf e s = s := by
  rw [astep]
  rcases h with h | h
  · by_cases he : e ∈ s.visited
    · rw [if_pos he]
    · rw [if_neg he, h]
      rfl
  · rw [if_pos h]

theorem pot_step (g : Graph) {u : String} {vis : List String} (hu : u ∉ vis) :
    pot g (u :: vis) + edgesLenAt g.edges u ≤ pot g vis :=
  pot_filter_step u vis hu g.edges

theorem measD_relax_le (g : Graph) (d : Cost) (u : String) (rest : PQ)
    (dist : String → Cost) (prev : String → Option String) (vis : List String)
    (hu : u ∉ vis) :
    measD (List.foldl (relaxD d u)
      { graph := g, pq := rest, dist := dist, previous := prev, visited := u :: vis }
      (g.get_neighbors u)) ≤ rest.length + pot g vis := by
  rw [measD, foldl_relaxD_graph, foldl_relaxD_visited]
  dsimp only
  have hp := foldl_relaxD_pq_len d u (g.get_neighbors u)
    { graph := g, pq := rest, dist := dist, previous := prev, visited := u :: vis }
  dsimp only at hp
  have hs := pot_step g hu
  have hg := get_neighbors_length g u
  omega

theorem measA_relax_le (g : Graph) (hf : String → ℚ) (u : String) (rest : PQ)
    (gs fs : String → Cost) (prev : String → Option String) (vis : List String)
    (hu : u ∉ vis) :
    measA (List.foldl (relaxA hf u)
      { graph := g, pq := rest, g_score := gs, f_score := fs, previous := prev,
        visited := u :: vis }
      (g.get_neighbors u)) ≤ rest.length + pot g vis := by
  rw [measA, foldl_relaxA_graph, foldl_relaxA_visited]
  dsimp only
  have hp := foldl_relaxA_pq_len hf u (g.get_neighbors u)
    { graph := g, pq := rest, g_score := gs, f_score := fs, previous := prev,
      visited := u :: vis }
  dsimp only at hp
  have hs := pot_step g hu
  have hg := get_neighbors_length g u
  omega

theorem dstep_progress {e : String} {s : DState} (hne : ¬ isExitD e s) :
    isExitD e (dstep e s) ∨ measD (dstep e s) < measD s := by
  rw [isExitD, not_or] at hne
  obtain ⟨hpq, hvis⟩ := hne
  rw [dstep, if_neg hvis]
  cases heq : heappop s.pq with
  | none => exact absurd (heappop_none_iff.mp heq) hpq
  | some pr =>
    obtain ⟨⟨d, u⟩, rest⟩ := pr
    dsimp only
    have hlen : rest.length + 1 = s.pq.length := rest_length heq
    by_cases hu : u ∈ s.visited
    · rw [if_pos hu]
      right
      show rest.length + pot s.graph s.visited < s.pq.length + pot s.graph s.visited
      omega
    · rw [if_neg hu]
      by_cases hue : u = e
      · rw [if_pos hue]
        left
        right
        rw [hue]
        exact List.mem_cons_self _ _
      · rw [if_neg hue]
        by_cases hd : s.dist u < d
        · rw [if_pos hd]
          right
          show rest.length + pot s.graph (u :: s.visited) < s.pq.length + pot s.graph s.visited
          have hm := pot_filter_mono u s.visited s.graph.edges
          rw [pot, pot] at *
          omega
        · rw [if_neg hd]
          right
          have hb := measD_relax_le s.graph d u rest s.dist s.previous s.visited hu
          have hms : measD s = s.pq.length + pot s.graph s.visited := rfl
          omega

theorem astep_progress {hf : String → ℚ} {e : String} {s : AState}
    (hne : ¬ isExitA e s) :
    isExitA e (astep hf e s) ∨ measA (astep hf e s) < measA s := by
  rw [isExitA, not_or] at hne
  obtain ⟨hpq, hvis⟩ := hne
  rw [astep, if_neg hvis]
  cases heq : heappop s.pq with
  | none => exact absurd (heappop_none_iff.mp heq) hpq
  | some pr =>
    obtain ⟨⟨d, u⟩, rest⟩ := pr
    dsimp only
    have hlen : rest.length + 1 = s.pq.length := rest_length heq
    by_cases hu : u ∈ s.visited
    · rw [if_pos hu]
      right
      show rest.length + pot s.graph s.visited < s.pq.length + pot s.graph s.visited
      omega
    · rw [if_neg hu]
      by_cases hue : u = e
      · rw [if_pos hue]
        left
        right
        rw [hue]
        exact List.mem_cons_self _ _
      · rw [if_neg hue]
        right
        have hb := measA_relax_le s.graph hf u rest s.g_score s.f_score
          s.previous s.visited hu
        have hms : measA s = s.pq.length + pot s.graph s.visited := rfl
        omega

theorem exitD_of_meas (e : String) :
    ∀ (n : Nat) (s : DState), measD s ≤ n → isExitD e ((dstep e)^[n] s) := by
  intro n
  induction n with
  | zero =>
    intro s h
    rw [measD] at h
    left
    simpa using List.length_eq_zero.mp (by omega)
  | succ n ih =>
    intro s h
    by_cases hex : isExitD e s
    · rw [Function.iterate_fixed (dstep_exit_fixed hex)]
      exact hex
    · rw [Function.iterate_succ_apply]
      rcases dstep_progress hex with h1 | h1
      · rw [Function.iterate_fixed (dstep_exit_fixed h1)]
        exact h1
      · exact ih _ (by omega)

theorem exitA_of_meas (hf : String → ℚ) (e : String) :
    ∀ (n : Nat) (s : AState), measA s ≤ n → isExitA e ((astep hf e)^[n] s) := by
  intro n
  induction n with
  | zero =>
    intro s h
    rw [measA] at h
    left
    simpa using List.length_eq_zero.mp (by omega)
  | succ n ih =>
    intro s h
    by_cases hex : isExitA e s
    · rw [Function.iterate_fixed (astep_exit_fixed hex)]
      exact hex
    · rw [Function.iterate_succ_apply]
      rcases astep_progress hex with h1 | h1
      · rw [Function.iterate_fixed (astep_exit_fixed h1)]
        exact h1
      · exact ih _ (by omega)

theorem dloop_exit (g : Graph) (start e : String) :
    isExitD e ((dstep e)^[dfuel g] (initD g start)) := by
  apply exitD_of_meas
  show (initD g start).pq.length + pot (initD g start).graph (initD g start).visited ≤ _
  have h1 : (initD g start).pq.length = 1 := rfl
  have h2 : pot (initD g start).graph (initD g start).visited = g.totalEdges := pot_nil g
  rw [h1, h2, dfuel]
  omega

theorem aloop_exit (g : Graph) (hf : String → ℚ) (start e : String) :
    isExitA e ((astep hf e)^[dfuel g] (initA g hf start)) := by
  apply exitA_of_meas
  show (initA g hf start).pq.length + pot (initA g hf start).graph (initA g hf start).visited ≤ _
  have h1 : (initA g hf start).pq.length = 1 := rfl
  have h2 : pot (initA g hf start).graph (initA g hf start).visited = g.totalEdges :=
    pot_nil g
  rw [h1, h2, dfuel]
  omega

theorem dstep_nodup {e : String} {s : DState} (h : s.visited.Nodup) :
    (dstep e s).visited.Nodup := by
  rw [dstep]
  split
  · exact h
  split
  · exact h
  split
  · exact h
  dsimp only
  split
  · exact List.nodup_cons.mpr ⟨by assumption, h⟩
  split
  · exact List.nodup_cons.mpr ⟨by assumption, h⟩
  · rw [foldl_relaxD_visited]
    exact List.nodup_cons.mpr ⟨by assumption, h⟩

theorem astep_nodup {hf : String → ℚ} {e : String} {s : AState}
    (h : s.visited.Nodup) : (astep hf e s).visited.Nodup := by
  rw [astep]
  split
  · exact h
  split
  · exact h
  split
  · exact h
  dsimp only
  split
  · exact List.nodup_cons.mpr ⟨by assumption, h⟩
  · rw [foldl_relaxA_visited]
    exact List.nodup_cons.mpr ⟨by assumption, h⟩

/-! ## Edges, walks and the settling order -/

/-- A directed edge of weight `w` from `u` to `z` is stored in the graph. -/
def EdgeIn (g : Graph) (u z : String) (w : ℚ) : Prop :=
  ∃ es e, lookupA u g.edges = some es ∧ e ∈ es ∧ e.to_node = z ∧ e.weight = w

/-- Some stored edge leads from `a` to `b`. -/
def Adj (g : Graph) (a b : String) : Prop := ∃ w, EdgeIn g a b w

/-- `b` is reachable from `a` along stored edges. -/
def Reach (g : Graph) : String → String → Prop := Relation.ReflTransGen (Adj g)

theorem mem_get_neighbors_iff {g : Graph} {u : String} {nw : String × ℚ} :
    nw ∈ g.get_neighbors u ↔ EdgeIn g u nw.1 nw.2 := by
  rw [Graph.get_neighbors, EdgeIn]
  cases hl : lookupA u g.edges with
  | none =>
    dsimp only
    constructor
    · intro h
      exact absurd h (List.not_mem_nil nw)
    · rintro ⟨es, e, hes, -⟩
      simp at hes
  | some es =>
    dsimp only
    constructor
    · intro h
      obtain ⟨e, he, hnw⟩ := List.mem_map.mp h
      exact ⟨es, e, rfl, he, by rw [← hnw], by rw [← hnw]⟩
    · rintro ⟨es2, e, hes2, he, ht, hw⟩
      rw [← Option.some.inj hes2] at he
      apply List.mem_map.mpr
      exact ⟨e, he, by rw [ht, hw]⟩

/-- In the (newest-first) settling list `vis`, `z` was settled strictly after
`u`: `z` occurs nearer the head. -/
def SettledAfter (vis : List String) (z u : String) : Prop :=
  ∃ i j, i < j ∧ vis.get? i = some z ∧ vis.get? j = some u

theorem settledAfter_cons {vis : List String} {z u : String} (w : String)
    (h : SettledAfter vis z u) : SettledAfter (w :: vis) z u := by
  obtain ⟨i, j, hij, hi, hj⟩ := h
  exact ⟨i + 1, j + 1, by omega, by simpa using hi, by simpa using hj⟩

theorem settledAfter_head {vis : List String} {u : String} (w : String)
    (h : u ∈ vis) : SettledAfter (w :: vis) w u := by
  obtain ⟨n, hn⟩ := List.mem_iff_get?.mp h
  exact ⟨0, n + 1, by omega, rfl, by simpa using hn⟩

theorem settledAfter_mem {vis : List String} {z u : String}
    (h : SettledAfter vis z u) : z ∈ vis ∧ u ∈ vis := by
  obtain ⟨i, j, _, hi, hj⟩ := h
  exact ⟨List.get?_mem hi, List.get?_mem hj⟩

/-! ## The dijkstra loop invariant -/

/-- Core invariant of dijkstra's working state for graph `g` and source
`start` (maintained with all weights non-negative): queue entries are finite
stale upper bounds on distances of graph nodes; every unsettled node with a
finite distance keeps a fresh entry; settled distances are lower bounds both
for all queue priorities and for all unsettled distances; `previous` records
a relaxed stored edge from an earlier-settled node; finite distances are
reachable from `start`. -/
structure DBase (g : Graph) (start : String) (s : DState) : Prop where
  graph_eq : s.graph = g
  nonneg : ∀ z, 0 ≤ s.dist z
  start_dist : s.dist start = 0
  start_prev : s.previous start = none
  pq_ub : ∀ p ∈ s.pq, s.dist p.2 ≤ p.1
  pq_fin : ∀ p ∈ s.pq, p.1 ≠ ⊤
  pq_nodes : ∀ p ∈ s.pq, g.hasNode p.2 = true
  fresh : ∀ z, z ∉ s.visited → s.dist z ≠ ⊤ → (s.dist z, z) ∈ s.pq
  vis_le_pq : ∀ v ∈ s.visited, ∀ p ∈ s.pq, s.dist v ≤ p.1
  vis_le : ∀ v ∈ s.visited, ∀ z, z ∉ s.visited → s.dist v ≤ s.dist z
  vis_fin : ∀ v ∈ s.visited, s.dist v ≠ ⊤
  vis_nodes : ∀ v ∈ s.visited, g.hasNode v = true
  nodup : s.visited.Nodup
  prev_vis : ∀ z u, s.previous z = some u → u ∈ s.visited
  prev_edge : ∀ z u, s.previous z = some u →
    ∃ w, EdgeIn g u z w ∧ s.dist u + (w : Cost) ≤ s.dist z ∧ s.dist z ≠ ⊤
  prev_idx : ∀ z ∈ s.visited, ∀ u, s.previous z = some u →
    SettledAfter s.visited z u
  fin_prev : ∀ z, z ≠ start → s.dist z ≠ ⊤ → s.previous z ≠ none
  fin_reach : ∀ z, s.dist z ≠ ⊤ → Reach g start z

/-- Settled nodes other than the goal have had all their out-edges relaxed:
their neighbors' distances are finite. -/
def NbrsFin (g : Graph) (e : String) (s : DState) : Prop :=
  ∀ v ∈ s.visited, v ≠ e → ∀ nw ∈ g.get_neighbors v, s.dist nw.1 ≠ ⊤

theorem DBase_init {g : Graph} {start : String} (hs : g.hasNode start = true) :
    DBase g start (initD g start) := by
  have hdist : ∀ z, (initD g start).dist z = if z = start then 0 else ⊤ := by
    intro z
    by_cases hz : z = start
    · rw [initD]
      show setF (fun _ => ⊤) start 0 z = _
      rw [hz, setF_same, if_pos rfl]
    · rw [initD]
      show setF (fun _ => ⊤) start 0 z = _
      rw [setF_other _ _ hz, if_neg hz]
  constructor
  · rfl
  · intro z
    rw [hdist]
    by_cases hz : z = start <;> simp [hz]
  · rw [hdist, if_pos rfl]
  · rfl
  · intro p hp
    rw [List.mem_singleton.mp hp, hdist]
    simp
  · intro p hp
    rw [List.mem_singleton.mp hp]
    simp
  · intro p hp
    rw [List.mem_singleton.mp hp]
    exact hs
  · intro z hz hfin
    rw [hdist] at hfin ⊢
    by_cases hzs : z = start
    · rw [if_pos hzs, hzs]
      exact List.mem_singleton.mpr rfl
    · rw [if_neg hzs] at hfin
      exact absurd rfl hfin
  · intro v hv
    exact absurd hv (List.not_mem_nil v)
  · intro v hv
    exact absurd hv (List.not_mem_nil v)
  · intro v hv
    exact absurd hv (List.not_mem_nil v)
  · intro v hv
    exact absurd hv (List.not_mem_nil v)
  · exact List.nodup_nil
  · intro z u h
    exact absurd h (by simp [initD])
  · intro z u h
    exact absurd h (by simp [initD])
  · intro z hz
    exact absurd hz (List.not_mem_nil z)
  · intro z hz hfin
    rw [hdist] at hfin
    rw [if_neg hz] at hfin
    exact absurd rfl hfin
  · intro z hfin
    rw [hdist] at hfin
    by_cases hzs : z = start
    · rw [hzs]
      exact Relation.ReflTransGen.refl
    · rw [if_neg hzs] at hfin
      exact absurd rfl hfin

theorem NbrsFin_init (g : Graph) (e start : String) :
    NbrsFin g e (initD g start) := by
  intro v hv
  exact absurd hv (List.not_mem_nil v)

/-- Facts available when the loop pops an unsettled node: its popped priority
equals its recorded distance, is finite, and bounds all queue priorities. -/
theorem pop_facts {g : Graph} {start : String} {s : DState}
    (hB : DBase g start s) {d : Cost} {u : String} {rest : PQ}
    (heq : heappop s.pq = some ((d, u), rest)) (hu : u ∉ s.visited) :
    s.dist u = d ∧ d ≠ ⊤ ∧ ∀ y ∈ s.pq, d ≤ y.1 := by
  obtain ⟨hm, hrest, hmin⟩ := heappop_some heq
  have hub := hB.pq_ub _ hm
  have hfin := hB.pq_fin _ hm
  have hdu : s.dist u ≠ ⊤ := by
    intro h
    rw [h] at hub
    exact hfin (top_le_iff.mp hub)
  have hfr := hB.fresh u hu hdu
  have hge : d ≤ s.dist u := not_entLT_fst (hmin _ hfr)
  exact ⟨le_antisymm hub hge, hfin, fun y hy => not_entLT_fst (hmin y hy)⟩

/-- One relaxation from a freshly settled node `u` (popped with priority
`d = dist u`) preserves the invariant, never touches settled entries, and
only decreases distances; the relaxed neighbor's distance ends up finite. -/
theorem relaxD_pres {g : Graph} {start u : String} {d : Cost} {t : DState}
    {nw : String × ℚ} (hDC : DestClosed g) (hB : DBase g start t)
    (hu : u ∈ t.visited) (hdu : t.dist u = d)
    (hvle : ∀ v ∈ t.visited, t.dist v ≤ d)
    (hnb : nw ∈ g.get_neighbors u) (hw : 0 ≤ nw.2) :
    DBase g start (relaxD d u t nw) ∧
    (relaxD d u t nw).visited = t.visited ∧
    (∀ v ∈ t.visited, (relaxD d u t nw).dist v = t.dist v ∧
      (relaxD d u t nw).previous v = t.previous v) ∧
    (∀ z, (relaxD d u t nw).dist z ≤ t.dist z) ∧
    (relaxD d u t nw).dist nw.1 ≠ ⊤ := by
  have hufin : t.dist u ≠ ⊤ := hB.vis_fin u hu
  have hdfin : d ≠ ⊤ := hdu ▸ hufin
  have hd0 : (0 : Cost) ≤ d := hdu ▸ hB.nonneg u
  have hw' : (0 : Cost) ≤ (nw.2 : Cost) := by exact_mod_cast hw
  have hcge : d ≤ d + (nw.2 : Cost) := le_add_of_nonneg_right hw'
  have hcfin : d + (nw.2 : Cost) ≠ ⊤ :=
    WithTop.add_ne_top.mpr ⟨hdfin, WithTop.coe_ne_top⟩
  have hc0 : (0 : Cost) ≤ d + (nw.2 : Cost) := le_trans hd0 hcge
  rw [relaxD]
  by_cases hlt : d + (nw.2 : Cost) < t.dist nw.1
  case neg =>
    rw [if_neg hlt]
    refine ⟨hB, rfl, fun v _ => ⟨rfl, rfl⟩, fun z => le_refl _, ?_⟩
    intro htop
    rw [htop] at hlt
    exact hlt (lt_top_iff_ne_top.mpr hcfin)
  case pos =>
    rw [if_pos hlt]
    dsimp only
    have hzvis : nw.1 ∉ t.visited := by
      intro hzin
      exact absurd hlt (not_lt.mpr (le_trans (hvle _ hzin) hcge))
    have hzu : nw.1 ≠ u := fun he => hzvis (he ▸ hu)
    have hzstart : nw.1 ≠ start := by
      intro he
      rw [he, hB.start_dist] at hlt
      exact absurd hlt (not_lt.mpr hc0)
    have hdz : ∀ z, z ≠ nw.1 → setF t.dist nw.1 (d + (nw.2 : Cost)) z = t.dist z :=
      fun z hz => setF_other _ _ hz
    have hdz1 : setF t.dist nw.1 (d + (nw.2 : Cost)) nw.1 = d + (nw.2 : Cost) :=
      setF_same _ _ _
    have hpz : ∀ z, z ≠ nw.1 → setF t.previous nw.1 (some u) z = t.previous z :=
      fun z hz => setF_other _ _ hz
    have hmono : ∀ z, setF t.dist nw.1 (d + (nw.2 : Cost)) z ≤ t.dist z := by
      intro z
      by_cases hz : z = nw.1
      · rw [hz, hdz1]
        exact le_of_lt hlt
      · rw [hdz z hz]
    have hfrozen : ∀ v ∈ t.visited,
        setF t.dist nw.1 (d + (nw.2 : Cost)) v = t.dist v ∧
        setF t.previous nw.1 (some u) v = t.previous v := by
      intro v hv
      have hvne : v ≠ nw.1 := fun he => hzvis (he ▸ hv)
      exact ⟨hdz v hvne, hpz v hvne⟩
    refine ⟨?_, rfl, hfrozen, hmono, by rw [hdz1]; exact hcfin⟩
    constructor
    · exact hB.graph_eq
    · intro z
      by_cases hz : z = nw.1
      · rw [hz]
        show (0 : Cost) ≤ setF t.dist nw.1 _ nw.1
        rw [hdz1]
        exact hc0
      · show (0 : Cost) ≤ setF t.dist nw.1 _ z
        rw [hdz z hz]
        exact hB.nonneg z
    · show setF t.dist nw.1 _ start = 0
      rw [hdz start (fun he => hzstart he.symm)]
      exact hB.start_dist
    · show setF t.previous nw.1 _ start = none
      rw [hpz start (fun he => hzstart he.symm)]
      exact hB.start_prev
    · intro p hp
      rcases List.mem_cons.mp hp with rfl | hp2
      · show setF t.dist nw.1 _ nw.1 ≤ _
        rw [hdz1]
      · show setF t.dist nw.1 _ p.2 ≤ p.1
        exact le_trans (hmono p.2) (hB.pq_ub p hp2)
    · intro p hp
      rcases List.mem_cons.mp hp with rfl | hp2
      · exact hcfin
      · exact hB.pq_fin p hp2
    · intro p hp
      rcases List.mem_cons.mp hp with rfl | hp2
      · exact DestClosed_neighbors hDC hnb
      · exact hB.pq_nodes p hp2
    · intro z hz hfin
      dsimp only at hz hfin ⊢
      by_cases hzz : z = nw.1
      · subst hzz
        rw [hdz1]
        exact List.mem_cons_self _ _
      · rw [hdz z hzz] at hfin ⊢
        exact List.mem_cons_of_mem _ (hB.fresh z hz hfin)
    · intro v hv p hp
      show setF t.dist nw.1 _ v ≤ p.1
      rw [(hfrozen v hv).1]
      rcases List.mem_cons.mp hp with rfl | hp2
      · exact le_trans (hvle v hv) hcge
      · exact hB.vis_le_pq v hv p hp2
    · intro v hv z hz
      show setF t.dist nw.1 _ v ≤ setF t.dist nw.1 _ z
      rw [(hfrozen v hv).1]
      by_cases hzz : z = nw.1
      · rw [hzz, hdz1]
        exact le_trans (hvle v hv) hcge
      · rw [hdz z hzz]
        exact hB.vis_le v hv z hz
    · intro v hv
      show setF t.dist nw.1 _ v ≠ ⊤
      rw [(hfrozen v hv).1]
      exact hB.vis_fin v hv
    · exact hB.vis_nodes
    · exact hB.nodup
    · intro z u' hzu'
      dsimp only at hzu' ⊢
      by_cases hzz : z = nw.1
      · subst hzz
        rw [setF_same] at hzu'
        rw [← Option.some.inj hzu']
        exact hu
      · rw [hpz z hzz] at hzu'
        exact hB.prev_vis z u' hzu'
    · intro z u' hzu'
      dsimp only at hzu' ⊢
      by_cases hzz : z = nw.1
      · subst hzz
        rw [setF_same] at hzu'
        have huu' : u = u' := Option.some.inj hzu'
        subst huu'
        refine ⟨nw.2, mem_get_neighbors_iff.mp hnb, ?_, ?_⟩
        · rw [hdz u hzu.symm, hdz1, hdu]
        · rw [hdz1]
          exact hcfin
      · rw [hpz z hzz] at hzu'
        obtain ⟨w, hE, hle, hfin⟩ := hB.prev_edge z u' hzu'
        have hu'vis : u' ∈ t.visited := hB.prev_vis z u' hzu'
        have hu'ne : u' ≠ nw.1 := fun he => hzvis (he ▸ hu'vis)
        refine ⟨w, hE, ?_, ?_⟩
        · rw [hdz u' hu'ne, hdz z hzz]
          exact hle
        · rw [hdz z hzz]
          exact hfin
    · intro z hz u' hzu'
      dsimp only at hz hzu' ⊢
      have hzne : z ≠ nw.1 := fun he => hzvis (he ▸ hz)
      rw [hpz z hzne] at hzu'
      exact hB.prev_idx z hz u' hzu'
    · intro z hzs hfin
      dsimp only at hfin ⊢
      by_cases hzz : z = nw.1
      · subst hzz
        rw [setF_same]
        simp
      · rw [hdz z hzz] at hfin
        rw [hpz z hzz]
        exact hB.fin_prev z hzs hfin
    · intro z hfin
      dsimp only at hfin
      by_cases hzz : z = nw.1
      · subst hzz
        have hru : Reach g start u := hB.fin_reach u hufin
        exact Relation.ReflTransGen.tail hru ⟨nw.2, mem_get_neighbors_iff.mp hnb⟩
      · rw [hdz z hzz] at hfin
        exact hB.fin_reach z hfin

/-- Relaxing a whole neighbor list preserves the invariant; afterwards every
neighbor in the list has a finite distance. -/
theorem foldl_relaxD_pres {g : Graph} {start u : String} {d : Cost}
    (hDC : DestClosed g) :
    ∀ (l : List (String × ℚ)) (t : DState), DBase g start t →
      u ∈ t.visited → t.dist u = d → (∀ v ∈ t.visited, t.dist v ≤ d) →
      (∀ nw ∈ l, nw ∈ g.get_neighbors u) → (∀ nw ∈ l, 0 ≤ nw.2) →
      DBase g start (l.foldl (relaxD d u) t) ∧
      (l.foldl (relaxD d u) t).visited = t.visited ∧
      (∀ v ∈ t.visited, (l.foldl (relaxD d u) t).dist v = t.dist v ∧
        (l.foldl (relaxD d u) t).previous v = t.previous v) ∧
      (∀ z, (l.foldl (relaxD d u) t).dist z ≤ t.dist z) ∧
      (∀ nw ∈ l, (l.foldl (relaxD d u) t).dist nw.1 ≠ ⊤) := by
  intro l
  induction l with
  | nil =>
    intro t hB _ _ _ _ _
    exact ⟨hB, rfl, fun v _ => ⟨rfl, rfl⟩, fun z => le_refl _,
      fun nw h => absurd h (List.not_mem_nil nw)⟩
  | cons nw l ih =>
    intro t hB hu hdu hvle hnbs hws
    rw [List.foldl_cons]
    obtain ⟨hB1, hvis1, hfroz1, hmono1, hfin1⟩ :=
      relaxD_pres hDC hB hu hdu hvle (hnbs nw (List.mem_cons_self _ _))
        (hws nw (List.mem_cons_self _ _))
    have hu1 : u ∈ (relaxD d u t nw).visited := by rw [hvis1]; exact hu
    have hdu1 : (relaxD d u t nw).dist u = d := by rw [(hfroz1 u hu).1, hdu]
    have hvle1 : ∀ v ∈ (relaxD d u t nw).visited, (relaxD d u t nw).dist v ≤ d := by
      intro v hv
      rw [hvis1] at hv
      rw [(hfroz1 v hv).1]
      exact hvle v hv
    obtain ⟨hB2, hvis2, hfroz2, hmono2, hfin2⟩ :=
      ih (relaxD d u t nw) hB1 hu1 hdu1 hvle1
        (fun x hx => hnbs x (List.mem_cons_of_mem _ hx))
        (fun x hx => hws x (List.mem_cons_of_mem _ hx))
    refine ⟨hB2, by rw [hvis2, hvis1], ?_, ?_, ?_⟩
    · intro v hv
      have hv1 : v ∈ (relaxD d u t nw).visited := by rw [hvis1]; exact hv
      obtain ⟨ha, hb⟩ := hfroz2 v hv1
      obtain ⟨hc, hd2⟩ := hfroz1 v hv
      exact ⟨by rw [ha, hc], by rw [hb, hd2]⟩
    · intro z
      exact le_trans (hmono2 z) (hmono1 z)
    · intro x hx
      rcases List.mem_cons.mp hx with rfl | hx2
      · have hle := hmono2 x.1
        intro htop
        rw [htop] at hle
        exact hfin1 (top_le_iff.mp hle)
      · exact hfin2 x hx2

/-- Discarding a stale queue entry (its node already settled) preserves the
invariant. -/
theorem DBase_stale {g : Graph} {start : String} {s : DState}
    (hB : DBase g start s) {m : Cost × String} {rest : PQ}
    (heq : heappop s.pq = some (m, rest)) (hmv : m.2 ∈ s.visited) :
    DBase g start { s with pq := rest } := by
  have hsub := rest_subset heq
  constructor
  · exact hB.graph_eq
  · exact hB.nonneg
  · exact hB.start_dist
  · exact hB.start_prev
  · exact fun p hp => hB.pq_ub p (hsub p hp)
  · exact fun p hp => hB.pq_fin p (hsub p hp)
  · exact fun p hp => hB.pq_nodes p (hsub p hp)
  · intro z hz hfin
    refine mem_rest_of_ne heq (hB.fresh z hz hfin) ?_
    intro hcontra
    have : z = m.2 := congrArg Prod.snd hcontra
    exact hz (this ▸ hmv)
  · exact fun v hv p hp => hB.vis_le_pq v hv p (hsub p hp)
  · exact hB.vis_le
  · exact hB.vis_fin
  · exact hB.vis_nodes
  · exact hB.nodup
  · exact hB.prev_vis
  · exact hB.prev_edge
  · exact hB.prev_idx
  · exact hB.fin_prev
  · exact hB.fin_reach

/-- Settling the popped node preserves the invariant: its popped priority is
its final distance, minimal among the queue and all unsettled nodes. -/
theorem DBase_settle {g : Graph} {start : String} {s : DState}
    (hB : DBase g start s) {d : Cost} {u : String} {rest : PQ}
    (heq : heappop s.pq = some ((d, u), rest)) (hu : u ∉ s.visited) :
    DBase g start { s with pq := rest, visited := u :: s.visited } := by
  obtain ⟨hdist, hdfin, hdlb⟩ := pop_facts hB heq hu
  obtain ⟨hm, -, -⟩ := heappop_some heq
  have hsub := rest_subset heq
  constructor
  · exact hB.graph_eq
  · exact hB.nonneg
  · exact hB.start_dist
  · exact hB.start_prev
  · exact fun p hp => hB.pq_ub p (hsub p hp)
  · exact fun p hp => hB.pq_fin p (hsub p hp)
  · exact fun p hp => hB.pq_nodes p (hsub p hp)
  · intro z hz hfin
    have hz2 : z ∉ s.visited := fun h => hz (List.mem_cons_of_mem _ h)
    have hzu : z ≠ u := fun h => hz (h ▸ List.mem_cons_self _ _)
    refine mem_rest_of_ne heq (hB.fresh z hz2 hfin) ?_
    intro hcontra
    exact hzu (congrArg Prod.snd hcontra)
  · intro v hv p hp
    rcases List.mem_cons.mp hv with rfl | hv2
    · rw [hdist]
      exact hdlb p (hsub p hp)
    · exact hB.vis_le_pq v hv2 p (hsub p hp)
  · intro v hv z hz
    have hz2 : z ∉ s.visited := fun h => hz (List.mem_cons_of_mem _ h)
    rcases List.mem_cons.mp hv with rfl | hv2
    · by_cases hfin : s.dist z = ⊤
      · rw [hfin]
        exact le_top
      · have hfr := hB.fresh z hz2 hfin
        rw [hdist]
        exact hdlb _ hfr
    · exact hB.vis_le v hv2 z hz2
  · intro v hv
    rcases List.mem_cons.mp hv with rfl | hv2
    · rw [hdist]
      exact hdfin
    · exact hB.vis_fin v hv2
  · intro v hv
    rcases List.mem_cons.mp hv with rfl | hv2
    · exact hB.pq_nodes _ hm
    · exact hB.vis_nodes v hv2
  · exact List.nodup_cons.mpr ⟨hu, hB.nodup⟩
  · exact fun z u' h => List.mem_cons_of_mem _ (hB.prev_vis z u' h)
  · exact hB.prev_edge
  · intro z hz u' hzu'
    rcases List.mem_cons.mp hz with rfl | hz2
    · exact settledAfter_head _ (hB.prev_vis z u' hzu')
    · exact settledAfter_cons _ (hB.prev_idx z hz2 u' hzu')
  · exact hB.fin_prev
  · exact hB.fin_reach

/-- One iteration of dijkstra's loop preserves the invariant; across the
iteration distances never increase, the settled set only grows, and settled
nodes keep their distance and predecessor. -/
theorem dstep_pres {g : Graph} {start e : String} {s : DState}
    (hDC : DestClosed g) (hW : NonnegW g) (hB : DBase g start s)
    (hN : NbrsFin g e s) :
    (DBase g start (dstep e s) ∧ NbrsFin g e (dstep e s)) ∧
    (∀ z, (dstep e s).dist z ≤ s.dist z) ∧
    (∀ v ∈ s.visited, v ∈ (dstep e s).visited) ∧
    (∀ v ∈ s.visited, (dstep e s).dist v = s.dist v ∧
      (dstep e s).previous v = s.previous v) := by
  rw [dstep]
  by_cases hev : e ∈ s.visited
  · rw [if_pos hev]
    exact ⟨⟨hB, hN⟩, fun z => le_refl _, fun v hv => hv, fun v _ => ⟨rfl, rfl⟩⟩
  rw [if_neg hev]
  cases heq : heappop s.pq with
  | none =>
    exact ⟨⟨hB, hN⟩, fun z => le_refl _, fun v hv => hv, fun v _ => ⟨rfl, rfl⟩⟩
  | some pr =>
    obtain ⟨⟨d, u⟩, rest⟩ := pr
    dsimp only
    by_cases hu : u ∈ s.visited
    · rw [if_pos hu]
      refine ⟨⟨DBase_stale hB heq hu, ?_⟩, fun z => le_refl _,
        fun v hv => hv, fun v _ => ⟨rfl, rfl⟩⟩
      exact hN
    · rw [if_neg hu]
      obtain ⟨hdist, hdfin, hdlb⟩ := pop_facts hB heq hu
      obtain ⟨hm, -, -⟩ := heappop_some heq
      have hB1 : DBase g start { s with pq := rest, visited := u :: s.visited } :=
        DBase_settle hB heq hu
      by_cases hue : u = e
      · rw [if_pos hue]
        refine ⟨⟨hB1, ?_⟩, fun z => le_refl _,
          fun v hv => List.mem_cons_of_mem _ hv, fun v _ => ⟨rfl, rfl⟩⟩
        intro v hv hve nw hnw
        rcases List.mem_cons.mp hv with rfl | hv2
        · exact absurd hue hve
        · exact hN v hv2 hve nw hnw
      · rw [if_neg hue]
        have hns : ¬ ({ s with pq := rest, visited := u :: s.visited } : DState).dist u < d := by
          show ¬ s.dist u < d
          rw [hdist]
          exact lt_irrefl d
        rw [if_neg hns]
        have hnbs : ∀ nw ∈ (({ s with pq := rest, visited := u :: s.visited } : DState).graph.get_neighbors u),
            nw ∈ g.get_neighbors u := by
          intro nw hnw
          rw [show (({ s with pq := rest, visited := u :: s.visited } : DState).graph) = g
            from hB.graph_eq] at hnw
          exact hnw
        have hws : ∀ nw ∈ (({ s with pq := rest, visited := u :: s.visited } : DState).graph.get_neighbors u),
            0 ≤ nw.2 := fun nw hnw => NonnegW_neighbors hW (hnbs nw hnw)
        have hvle1 : ∀ v ∈ ({ s with pq := rest, visited := u :: s.visited } : DState).visited,
            ({ s with pq := rest, visited := u :: s.visited } : DState).dist v ≤ d := by
          intro v hv
          rcases List.mem_cons.mp hv with rfl | hv2
          · show s.dist v ≤ d
            rw [hdist]
          · show s.dist v ≤ d
            exact hB.vis_le_pq v hv2 (d, u) hm
        obtain ⟨hB2, hvis2, hfroz2, hmono2, hfin2⟩ :=
          foldl_relaxD_pres hDC _ _ hB1 (List.mem_cons_self _ _) hdist hvle1 hnbs hws
        refine ⟨⟨hB2, ?_⟩, ?_, ?_, ?_⟩
        · intro v hv hve nw hnw
          rw [hvis2] at hv
          rcases List.mem_cons.mp hv with hvu | hv2
          · subst hvu
            exact hfin2 nw (hB.graph_eq.symm ▸ hnw)
          · have hold : s.dist nw.1 ≠ ⊤ := hN v hv2 hve nw hnw
            have hle := hmono2 nw.1
            intro htop
            rw [htop] at hle
            exact hold (top_le_iff.mp hle)
        · exact fun z => hmono2 z
        · intro v hv
          rw [hvis2]
          exact List.mem_cons_of_mem _ hv
        · exact fun v hv => hfroz2 v (List.mem_cons_of_mem _ hv)

/-! ## The exit state of dijkstra's loop -/

theorem dRun_inv {g : Graph} {start e : String} (hDC : DestClosed g)
    (hW : NonnegW g) (hs : g.hasNode start = true) :
    DBase g start (dRun g start e) ∧ NbrsFin g e (dRun g start e) := by
  rw [dRun]
  exact iterate_pres (dstep e) (fun s => DBase g start s ∧ NbrsFin g e s)
    (fun s hI => (dstep_pres hDC hW hI.1 hI.2).1) (dfuel g) _
    ⟨DBase_init hs, NbrsFin_init g e start⟩

theorem dRun_exit (g : Graph) (start e : String) :
    isExitD e (dRun g start e) := dloop_exit g start e

theorem dRun_vis_of_fin {g : Graph} {start e : String} (hDC : DestClosed g)
    (hW : NonnegW g) (hs : g.hasNode start = true)
    (hfin : (dRun g start e).dist e ≠ ⊤) : e ∈ (dRun g start e).visited := by
  rcases dRun_exit g start e with hpq | hvis
  · by_contra hc
    have hmem := ((dRun_inv (e := e) hDC hW hs).1).fresh e hc hfin
    rw [hpq] at hmem
    exact absurd hmem (List.not_mem_nil _)
  · exact hvis

theorem dRun_complete {g : Graph} {start e : String} (hDC : DestClosed g)
    (hW : NonnegW g) (hs : g.hasNode start = true)
    (hreach : Reach g start e) : (dRun g start e).dist e ≠ ⊤ := by
  obtain ⟨hB, hN⟩ := dRun_inv (e := e) hDC hW hs
  rcases dRun_exit g start e with hpq | hvis
  · have key : ∀ z, Reach g start z →
        (dRun g start e).dist e ≠ ⊤ ∨ (dRun g start e).dist z ≠ ⊤ := by
      intro z hz
      induction hz with
      | refl =>
        right
        rw [hB.start_dist]
        simp
      | @tail b c hab hbc ih =>
        rcases ih with h1 | h1
        · exact Or.inl h1
        · by_cases hbe : b = e
          · rw [hbe] at h1
            exact Or.inl h1
          · have hbvis : b ∈ (dRun g start e).visited := by
              by_contra hc2
              have hmem := hB.fresh b hc2 h1
              rw [hpq] at hmem
              exact absurd hmem (List.not_mem_nil _)
            obtain ⟨w, hE⟩ := hbc
            right
            exact hN b hbvis hbe (c, w) (mem_get_neighbors_iff.mpr hE)
    rcases key e hreach with h | h <;> exact h
  · exact hB.vis_fin e hvis

/-- A duplicate-free list of graph-node keys is no longer than the node map. -/
theorem visited_le_nodes {g : Graph} {vis : List String} (hnodup : vis.Nodup)
    (hnodes : ∀ x ∈ vis, g.hasNode x = true) : vis.length ≤ g.nodes.length := by
  have hsub : vis ⊆ g.nodes.map Prod.fst := by
    intro x hx
    have hn := hnodes x hx
    rw [Graph.hasNode] at hn
    obtain ⟨nd, hnd⟩ := Option.isSome_iff_exists.mp hn
    exact List.mem_map.mpr ⟨(x, nd), lookupA_mem hnd, rfl⟩
  calc vis.length = vis.toFinset.card := (List.toFinset_card_of_nodup hnodup).symm
    _ ≤ (g.nodes.map Prod.fst).toFinset.card :=
      Finset.card_le_card
        (fun x hx => List.mem_toFinset.mpr (hsub (List.mem_toFinset.mp hx)))
    _ ≤ (g.nodes.map Prod.fst).length := List.toFinset_card_le _
    _ = g.nodes.length := List.length_map _ _

/-- Correctness of the shared path reconstruction: starting from a settled
node, following a predecessor map that always points to an earlier-settled
node yields a duplicate-free chain ending at `start`, provided the fuel
covers the settled positions that remain. -/
theorem reconstruct_ok (previous : String → Option String) (vis : List String)
    (start : String) (hnodup : vis.Nodup)
    (hidx : ∀ z ∈ vis, ∀ u, previous z = some u → SettledAfter vis z u)
    (hnone : ∀ z ∈ vis, previous z = none → z = start) :
    ∀ (n : Nat) (cur : String) (acc : List String) (i : Nat),
      vis.get? i = some cur → vis.length ≤ n + i →
      ∃ chain : List String,
        reconstruct previous n cur acc = some ((acc ++ chain).reverse) ∧
        chain.head? = some cur ∧ chain.getLast? = some start ∧
        List.Chain' (fun a b => previous a = some b) chain ∧
        chain.Nodup ∧
        ∀ x ∈ chain, ∃ j, i ≤ j ∧ vis.get? j = some x := by
  intro n
  induction n with
  | zero =>
    intro cur acc i hi hlen
    obtain ⟨hlt, -⟩ := List.get?_eq_some.mp hi
    omega
  | succ n ih =>
    intro cur acc i hi hlen
    have hcur_vis : cur ∈ vis := List.get?_mem hi
    have hlt : i < vis.length := (List.get?_eq_some.mp hi).1
    rw [reconstruct]
    cases hp : previous cur with
    | none =>
      have hstart : cur = start := hnone cur hcur_vis hp
      refine ⟨[cur], rfl, rfl, by rw [hstart]; rfl, List.chain'_singleton cur,
        List.nodup_singleton cur, ?_⟩
      intro x hx
      rw [List.mem_singleton.mp hx]
      exact ⟨i, le_refl i, hi⟩
    | some p =>
      dsimp only
      obtain ⟨i2, j2, hij2, hi2, hj2⟩ := hidx cur hcur_vis p hp
      have hii : i = i2 := List.get?_inj hlt hnodup (hi.trans hi2.symm)
      have hlen2 : vis.length ≤ n + j2 := by omega
      obtain ⟨chain, hrec, hhead, hlast, hchain, hnodup2, hidx2⟩ :=
        ih p (acc ++ [cur]) j2 hj2 hlen2
      have hcur_chain : cur ∉ chain := by
        intro hc
        obtain ⟨j, hj, hjx⟩ := hidx2 cur hc
        have : i = j := List.get?_inj hlt hnodup (hi.trans hjx.symm)
        omega
      refine ⟨cur :: chain, ?_, rfl, ?_, ?_, List.nodup_cons.mpr ⟨hcur_chain, hnodup2⟩, ?_⟩
      · rw [hrec]
        rw [List.append_assoc, List.singleton_append]
      · cases chain with
        | nil => simp at hhead
        | cons c0 cs => rw [List.getLast?_cons_cons]; exact hlast
      · apply List.chain'_cons'.mpr
        refine ⟨?_, hchain⟩
        intro y hy
        rw [hhead] at hy
        rw [← Option.some.inj hy]
        exact hp
      · intro x hx
        rcases List.mem_cons.mp hx with rfl | hx2
        · exact ⟨i, le_refl i, hi⟩
        · obtain ⟨j, hj, hjx⟩ := hidx2 x hx2
          exact ⟨j, by omega, hjx⟩

/-- When the goal's distance is finite at exit, reconstruction succeeds and
returns a duplicate-free walk from `start` to `e`. -/
theorem dRun_path {g : Graph} {start e : String} (hDC : DestClosed g)
    (hW : NonnegW g) (hs : g.hasNode start = true)
    (hfin : (dRun g start e).dist e ≠ ⊤) :
    ∃ p : List String,
      reconstruct (dRun g start e).previous (g.nodes.length + 1) e [] = some p ∧
      p.head? = some start ∧ p.getLast? = some e ∧
      List.Chain' (Adj g) p ∧ p.Nodup := by
  obtain ⟨hB, hN⟩ := dRun_inv (e := e) hDC hW hs
  have hvis := dRun_vis_of_fin hDC hW hs hfin
  obtain ⟨i, hi⟩ := List.mem_iff_get?.mp hvis
  have hlen : (dRun g start e).visited.length ≤ (g.nodes.length + 1) + i := by
    have := visited_le_nodes hB.nodup hB.vis_nodes
    omega
  have hnone : ∀ z ∈ (dRun g start e).visited,
      (dRun g start e).previous z = none → z = start := by
    intro z hz hzp
    by_contra hc
    exact hB.fin_prev z hc (hB.vis_fin z hz) hzp
  obtain ⟨chain, hrec, hhead, hlast, hchain, hnodup, -⟩ :=
    reconstruct_ok (dRun g start e).previous (dRun g start e).visited start
      hB.nodup hB.prev_idx hnone (g.nodes.length + 1) e [] i hi hlen
  refine ⟨chain.reverse, by simpa using hrec, ?_, ?_, ?_, ?_⟩
  · rw [List.head?_reverse]
    exact hlast
  · rw [List.getLast?_reverse]
    exact hhead
  · apply List.chain'_reverse.mpr
    apply List.Chain'.imp ?_ hchain
    intro a b hab
    obtain ⟨w, hE, -, -⟩ := hB.prev_edge a b hab
    exact ⟨w, hE⟩
  · exact List.nodup_reverse.mpr hnodup

theorem dijkstra_absent {g : Graph} {start e : String}
    (h : g.hasNode start = false ∨ g.hasNode e = false) :
    dijkstra g start e = (none, ⊤) := by
  rw [dijkstra, if_pos]
  rcases h with h | h <;> simp [h]

theorem dijkstra_guard {g : Graph} {start e : String}
    (hs : g.hasNode start = true) (he : g.hasNode e = true) :
    dijkstra g start e =
      (if (dRun g start e).dist e = ⊤ then (none, ⊤)
       else (reconstruct (dRun g start e).previous (g.nodes.length + 1) e [],
             (dRun g start e).dist e)) := by
  rw [dijkstra, if_neg]
  simp [hs, he]

theorem dijkstra_noreach {g : Graph} {start e : String} (hDC : DestClosed g)
    (hW : NonnegW g) (hs : g.hasNode start = true) (he : g.hasNode e = true)
    (hnr : ¬ Reach g start e) : dijkstra g start e = (none, ⊤) := by
  have hfin : (dRun g start e).dist e = ⊤ := by
    by_contra hc
    exact hnr (((dRun_inv (e := e) hDC hW hs).1).fin_reach e hc)
  rw [dijkstra_guard hs he, if_pos hfin]

theorem dijkstra_reach {g : Graph} {start e : String} (hDC : DestClosed g)
    (hW : NonnegW g) (hs : g.hasNode start = true) (he : g.hasNode e = true)
    (hreach : Reach g start e) :
    ∃ p : List String,
      dijkstra g start e = (some p, (dRun g start e).dist e) ∧
      (dRun g start e).dist e ≠ ⊤ ∧
      p.head? = some start ∧ p.getLast? = some e ∧
      List.Chain' (Adj g) p ∧ p.Nodup := by
  have hfin := dRun_complete hDC hW hs hreach
  obtain ⟨p, hrec, h1, h2, h3, h4⟩ := dRun_path hDC hW hs hfin
  refine ⟨p, ?_, hfin, h1, h2, h3, h4⟩
  rw [dijkstra_guard hs he, if_neg hfin, hrec]

theorem dijkstra_found_reach {g : Graph} {start e : String} (hDC : DestClosed g)
    (hW : NonnegW g) (hs : g.hasNode start = true) (he : g.hasNode e = true)
    (hfound : (dijkstra g start e).2 ≠ ⊤) : Reach g start e := by
  by_cases hfin : (dRun g start e).dist e = ⊤
  · rw [dijkstra_guard hs he, if_pos hfin] at hfound
    exact absurd rfl hfound
  · exact ((dRun_inv (e := e) hDC hW hs).1).fin_reach e hfin

/-! ## The astar loop invariant -/

/-- Invariant of astar's working state for graph `g` and source `start`:
queue nodes are graph nodes with a finite g-score; unsettled nodes with a
finite g-score keep some entry; `previous` records a stored edge from a
settled node, settled strictly earlier; finite g-scores are reachable. -/
structure ABase (g : Graph) (start : String) (s : AState) : Prop where
  graph_eq : s.graph = g
  nonneg : ∀ z, 0 ≤ s.g_score z
  start_g : s.g_score start = 0
  start_prev : s.previous start = none
  pq_gfin : ∀ p ∈ s.pq, s.g_score p.2 ≠ ⊤
  pq_nodes : ∀ p ∈ s.pq, g.hasNode p.2 = true
  fresh : ∀ z, z ∉ s.visited → s.g_score z ≠ ⊤ → ∃ f, (f, z) ∈ s.pq
  vis_fin : ∀ v ∈ s.visited, s.g_score v ≠ ⊤
  vis_nodes : ∀ v ∈ s.visited, g.hasNode v = true
  nodup : s.visited.Nodup
  prev_vis : ∀ z u, s.previous z = some u → u ∈ s.visited
  prev_edge : ∀ z u, s.previous z = some u → ∃ w, EdgeIn g u z w
  prev_idx : ∀ z ∈ s.visited, ∀ u, s.previous z = some u →
    SettledAfter s.visited z u
  fin_prev : ∀ z, z ≠ start → s.g_score z ≠ ⊤ → s.previous z ≠ none
  fin_reach : ∀ z, s.g_score z ≠ ⊤ → Reach g start z

/-- astar's version of `NbrsFin`: settled non-goal nodes have had all their
out-edges considered, so their neighbors' g-scores are finite. -/
def NbrsFinA (g : Graph) (e : String) (s : AState) : Prop :=
  ∀ v ∈ s.visited, v ≠ e → ∀ nw ∈ g.get_neighbors v, s.g_score nw.1 ≠ ⊤

theorem ABase_init {g : Graph} {start : String} (h : String → ℚ)
    (hs : g.hasNode start = true) : ABase g start (initA g h start) := by
  have hdist : ∀ z, (initA g h start).g_score z = if z = start then 0 else ⊤ := by
    intro z
    by_cases hz : z = start
    · rw [initA]
      show setF (fun _ => ⊤) start 0 z = _
      rw [hz, setF_same, if_pos rfl]
    · rw [initA]
      show setF (fun _ => ⊤) start 0 z = _
      rw [setF_other _ _ hz, if_neg hz]
  constructor
  · rfl
  · intro z
    rw [hdist]
    by_cases hz : z = start <;> simp [hz]
  · rw [hdist, if_pos rfl]
  · rfl
  · intro p hp
    rw [List.mem_singleton.mp hp, hdist]
    simp
  · intro p hp
    rw [List.mem_singleton.mp hp]
    exact hs
  · intro z hz hfin
    rw [hdist] at hfin
    by_cases hzs : z = start
    · subst hzs
      exact ⟨((h z : ℚ) : Cost), List.mem_singleton.mpr rfl⟩
    · rw [if_neg hzs] at hfin
      exact absurd rfl hfin
  · intro v hv
    exact absurd hv (List.not_mem_nil v)
  · intro v hv
    exact absurd hv (List.not_mem_nil v)
  · exact List.nodup_nil
  · intro z u hzu
    exact absurd hzu (by simp [initA])
  · intro z u hzu
    exact absurd hzu (by simp [initA])
  · intro z hz
    exact absurd hz (List.not_mem_nil z)
  · intro z hzs hfin
    rw [hdist, if_neg hzs] at hfin
    exact absurd rfl hfin
  · intro z hfin
    rw [hdist] at hfin
    by_cases hzs : z = start
    · rw [hzs]
      exact Relation.ReflTransGen.refl
    · rw [if_neg hzs] at hfin
      exact absurd rfl hfin

theorem NbrsFinA_init (g : Graph) (h : String → ℚ) (e start : String) :
    NbrsFinA g e (initA g h start) := by
  intro v hv
  exact absurd hv (List.not_mem_nil v)

/-- One relaxation in astar preserves the invariant: settled entries are
skipped outright, so their scores and predecessors never change. -/
theorem relaxA_pres {g : Graph} {start u : String} {hf : String → ℚ}
    {t : AState} {nw : String × ℚ} (hDC : DestClosed g) (hB : ABase g start t)
    (hu : u ∈ t.visited) (hnb : nw ∈ g.get_neighbors u) (hw : 0 ≤ nw.2) :
    ABase g start (relaxA hf u t nw) ∧
    (relaxA hf u t nw).visited = t.visited ∧
    (∀ v ∈ t.visited, (relaxA hf u t nw).g_score v = t.g_score v ∧
      (relaxA hf u t nw).previous v = t.previous v) ∧
    (∀ z, (relaxA hf u t nw).g_score z ≤ t.g_score z) ∧
    (relaxA hf u t nw).g_score nw.1 ≠ ⊤ := by
  have hufin : t.g_score u ≠ ⊤ := hB.vis_fin u hu
  have hu0 : (0 : Cost) ≤ t.g_score u := hB.nonneg u
  have hw' : (0 : Cost) ≤ (nw.2 : Cost) := by exact_mod_cast hw
  have htfin : t.g_score u + (nw.2 : Cost) ≠ ⊤ :=
    WithTop.add_ne_top.mpr ⟨hufin, WithTop.coe_ne_top⟩
  have ht0 : (0 : Cost) ≤ t.g_score u + (nw.2 : Cost) :=
    le_trans hu0 (le_add_of_nonneg_right hw')
  rw [relaxA]
  by_cases hzv : nw.1 ∈ t.visited
  · rw [if_pos hzv]
    exact ⟨hB, rfl, fun v _ => ⟨rfl, rfl⟩, fun z => le_refl _, hB.vis_fin _ hzv⟩
  rw [if_neg hzv]
  by_cases hlt : t.g_score u + (nw.2 : Cost) < t.g_score nw.1
  case neg =>
    rw [if_neg hlt]
    refine ⟨hB, rfl, fun v _ => ⟨rfl, rfl⟩, fun z => le_refl _, ?_⟩
    intro htop
    rw [htop] at hlt
    exact hlt (lt_top_iff_ne_top.mpr htfin)
  case pos =>
    rw [if_pos hlt]
    dsimp only
    have hzstart : nw.1 ≠ start := by
      intro he
      rw [he, hB.start_g] at hlt
      exact absurd hlt (not_lt.mpr ht0)
    have hdz : ∀ z, z ≠ nw.1 →
        setF t.g_score nw.1 (t.g_score u + (nw.2 : Cost)) z = t.g_score z :=
      fun z hz => setF_other _ _ hz
    have hdz1 : setF t.g_score nw.1 (t.g_score u + (nw.2 : Cost)) nw.1 =
        t.g_score u + (nw.2 : Cost) := setF_same _ _ _
    have hpz : ∀ z, z ≠ nw.1 → setF t.previous nw.1 (some u) z = t.previous z :=
      fun z hz => setF_other _ _ hz
    have hmono : ∀ z, setF t.g_score nw.1 (t.g_score u + (nw.2 : Cost)) z ≤ t.g_score z := by
      intro z
      by_cases hz : z = nw.1
      · rw [hz, hdz1]
        exact le_of_lt hlt
      · rw [hdz z hz]
    have hfrozen : ∀ v ∈ t.visited,
        setF t.g_score nw.1 (t.g_score u + (nw.2 : Cost)) v = t.g_score v ∧
        setF t.previous nw.1 (some u) v = t.previous v := by
      intro v hv
      have hvne : v ≠ nw.1 := fun he => hzv (he ▸ hv)
      exact ⟨hdz v hvne, hpz v hvne⟩
    refine ⟨?_, rfl, hfrozen, hmono, by rw [hdz1]; exact htfin⟩
    constructor
    · exact hB.graph_eq
    · intro z
      by_cases hz : z = nw.1
      · subst hz
        show (0 : Cost) ≤ setF t.g_score nw.1 _ nw.1
        rw [setF_same]
        exact ht0
      · show (0 : Cost) ≤ setF t.g_score nw.1 _ z
        rw [hdz z hz]
        exact hB.nonneg z
    · show setF t.g_score nw.1 _ start = 0
      rw [hdz start (fun he => hzstart he.symm)]
      exact hB.start_g
    · show setF t.previous nw.1 _ start = none
      rw [hpz start (fun he => hzstart he.symm)]
      exact hB.start_prev
    · intro p hp
      rcases List.mem_cons.mp hp with rfl | hp2
      · show setF t.g_score nw.1 _ nw.1 ≠ ⊤
        rw [hdz1]
        exact htfin
      · show setF t.g_score nw.1 _ p.2 ≠ ⊤
        intro htop
        have hle := hmono p.2
        rw [htop] at hle
        exact hB.pq_gfin p hp2 (top_le_iff.mp hle)
    · intro p hp
      rcases List.mem_cons.mp hp with rfl | hp2
      · exact DestClosed_neighbors hDC hnb
      · exact hB.pq_nodes p hp2
    · intro z hz hfin
      dsimp only at hz hfin ⊢
      by_cases hzz : z = nw.1
      · subst hzz
        exact ⟨t.g_score u + (nw.2 : Cost) + ((hf nw.1 : ℚ) : Cost),
          List.mem_cons_self _ _⟩
      · rw [hdz z hzz] at hfin
        obtain ⟨f, hfm⟩ := hB.fresh z hz hfin
        exact ⟨f, List.mem_cons_of_mem _ hfm⟩
    · intro v hv
      show setF t.g_score nw.1 _ v ≠ ⊤
      rw [(hfrozen v hv).1]
      exact hB.vis_fin v hv
    · exact hB.vis_nodes
    · exact hB.nodup
    · intro z u' hzu'
      dsimp only at hzu' ⊢
      by_cases hzz : z = nw.1
      · subst hzz
        rw [setF_same] at hzu'
        rw [← Option.some.inj hzu']
        exact hu
      · rw [hpz z hzz] at hzu'
        exact hB.prev_vis z u' hzu'
    · intro z u' hzu'
      dsimp only at hzu'
      by_cases hzz : z = nw.1
      · subst hzz
        rw [setF_same] at hzu'
        rw [← Option.some.inj hzu']
        exact ⟨nw.2, mem_get_neighbors_iff.mp hnb⟩
      · rw [hpz z hzz] at hzu'
        exact hB.prev_edge z u' hzu'
    · intro z hz u' hzu'
      dsimp only at hz hzu' ⊢
      have hzne : z ≠ nw.1 := fun he => hzv (he ▸ hz)
      rw [hpz z hzne] at hzu'
      exact hB.prev_idx z hz u' hzu'
    · intro z hzs hfin
      dsimp only at hfin ⊢
      by_cases hzz : z = nw.1
      · subst hzz
        rw [setF_same]
        simp
      · rw [hdz z hzz] at hfin
        rw [hpz z hzz]
        exact hB.fin_prev z hzs hfin
    · intro z hfin
      dsimp only at hfin
      by_cases hzz : z = nw.1
      · subst hzz
        have hru : Reach g start u := hB.fin_reach u hufin
        exact Relation.ReflTransGen.tail hru ⟨nw.2, mem_get_neighbors_iff.mp hnb⟩
      · rw [hdz z hzz] at hfin
        exact hB.fin_reach z hfin

theorem foldl_relaxA_pres {g : Graph} {start u : String} {hf : String → ℚ}
    (hDC : DestClosed g) :
    ∀ (l : List (String × ℚ)) (t : AState), ABase g start t →
      u ∈ t.visited →
      (∀ nw ∈ l, nw ∈ g.get_neighbors u) → (∀ nw ∈ l, 0 ≤ nw.2) →
      ABase g start (l.foldl (relaxA hf u) t) ∧
      (l.foldl (relaxA hf u) t).visited = t.visited ∧
      (∀ v ∈ t.visited, (l.foldl (relaxA hf u) t).g_score v = t.g_score v ∧
        (l.foldl (relaxA hf u) t).previous v = t.previous v) ∧
      (∀ z, (l.foldl (relaxA hf u) t).g_score z ≤ t.g_score z) ∧
      (∀ nw ∈ l, (l.foldl (relaxA hf u) t).g_score nw.1 ≠ ⊤) := by
  intro l
  induction l with
  | nil =>
    intro t hB _ _ _
    exact ⟨hB, rfl, fun v _ => ⟨rfl, rfl⟩, fun z => le_refl _,
      fun nw h => absurd h (List.not_mem_nil nw)⟩
  | cons nw l ih =>
    intro t hB hu hnbs hws
    rw [List.foldl_cons]
    obtain ⟨hB1, hvis1, hfroz1, hmono1, hfin1⟩ :=
      @relaxA_pres g start u hf _ _ hDC hB hu (hnbs nw (List.mem_cons_self _ _))
        (hws nw (List.mem_cons_self _ _))
    have hu1 : u ∈ (relaxA hf u t nw).visited := by rw [hvis1]; exact hu
    obtain ⟨hB2, hvis2, hfroz2, hmono2, hfin2⟩ :=
      ih (relaxA hf u t nw) hB1 hu1
        (fun x hx => hnbs x (List.mem_cons_of_mem _ hx))
        (fun x hx => hws x (List.mem_cons_of_mem _ hx))
    refine ⟨hB2, by rw [hvis2, hvis1], ?_, ?_, ?_⟩
    · intro v hv
      have hv1 : v ∈ (relaxA hf u t nw).visited := by rw [hvis1]; exact hv
      obtain ⟨ha, hb⟩ := hfroz2 v hv1
      obtain ⟨hc, hd2⟩ := hfroz1 v hv
      exact ⟨by rw [ha, hc], by rw [hb, hd2]⟩
    · intro z
      exact le_trans (hmono2 z) (hmono1 z)
    · intro x hx
      rcases List.mem_cons.mp hx with rfl | hx2
      · have hle := hmono2 x.1
        intro htop
        rw [htop] at hle
        exact hfin1 (top_le_iff.mp hle)
      · exact hfin2 x hx2

theorem ABase_stale {g : Graph} {start : String} {s : AState}
    (hB : ABase g start s) {m : Cost × String} {rest : PQ}
    (heq : heappop s.pq = some (m, rest)) (hmv : m.2 ∈ s.visited) :
    ABase g start { s with pq := rest } := by
  have hsub := rest_subset heq
  constructor
  · exact hB.graph_eq
  · exact hB.nonneg
  · exact hB.start_g
  · exact hB.start_prev
  · exact fun p hp => hB.pq_gfin p (hsub p hp)
  · exact fun p hp => hB.pq_nodes p (hsub p hp)
  · intro z hz hfin
    obtain ⟨f, hfm⟩ := hB.fresh z hz hfin
    refine ⟨f, mem_rest_of_ne heq hfm ?_⟩
    intro hcontra
    have : z = m.2 := congrArg Prod.snd hcontra
    exact hz (this ▸ hmv)
  · exact hB.vis_fin
  · exact hB.vis_nodes
  · exact hB.nodup
  · exact hB.prev_vis
  · exact hB.prev_edge
  · exact hB.prev_idx
  · exact hB.fin_prev
  · exact hB.fin_reach

theorem ABase_settle {g : Graph} {start : String} {s : AState}
    (hB : ABase g start s) {d : Cost} {u : String} {rest : PQ}
    (heq : heappop s.pq = some ((d, u), rest)) (hu : u ∉ s.visited) :
    ABase g start { s with pq := rest, visited := u :: s.visited } := by
  obtain ⟨hm, -, -⟩ := heappop_some heq
  have hsub := rest_subset heq
  have hufin : s.g_score u ≠ ⊤ := hB.pq_gfin _ hm
  constructor
  · exact hB.graph_eq
  · exact hB.nonneg
  · exact hB.start_g
  · exact hB.start_prev
  · exact fun p hp => hB.pq_gfin p (hsub p hp)
  · exact fun p hp => hB.pq_nodes p (hsub p hp)
  · intro z hz hfin
    have hz2 : z ∉ s.visited := fun h => hz (List.mem_cons_of_mem _ h)
    have hzu : z ≠ u := fun h => hz (h ▸ List.mem_cons_self _ _)
    obtain ⟨f, hfm⟩ := hB.fresh z hz2 hfin
    refine ⟨f, mem_rest_of_ne heq hfm ?_⟩
    intro hcontra
    exact hzu (congrArg Prod.snd hcontra)
  · intro v hv
    rcases List.mem_cons.mp hv with rfl | hv2
    · exact hufin
    · exact hB.vis_fin v hv2
  · intro v hv
    rcases List.mem_cons.mp hv with rfl | hv2
    · exact hB.pq_nodes _ hm
    · exact hB.vis_nodes v hv2
  · exact List.nodup_cons.mpr ⟨hu, hB.nodup⟩
  · exact fun z u' h => List.mem_cons_of_mem _ (hB.prev_vis z u' h)
  · exact hB.prev_edge
  · intro z hz u' hzu'
    rcases List.mem_cons.mp hz with rfl | hz2
    · exact settledAfter_head _ (hB.prev_vis z u' hzu')
    · exact settledAfter_cons _ (hB.prev_idx z hz2 u' hzu')
  · exact hB.fin_prev
  · exact hB.fin_reach

/-- One iteration of astar's loop preserves the invariant; g-scores never
increase, the settled set grows, and settled nodes keep score and
predecessor. -/
theorem astep_pres {g : Graph} {start e : String} {hf : String → ℚ} {s : AState}
    (hDC : DestClosed g) (hW : NonnegW g) (hB : ABase g start s)
    (hN : NbrsFinA g e s) :
    (ABase g start (astep hf e s) ∧ NbrsFinA g e (astep hf e s)) ∧
    (∀ z, (astep hf e s).g_score z ≤ s.g_score z) ∧
    (∀ v ∈ s.visited, v ∈ (astep hf e s).visited) ∧
    (∀ v ∈ s.visited, (astep hf e s).g_score v = s.g_score v ∧
      (astep hf e s).previous v = s.previous v) := by
  rw [astep]
  by_cases hev : e ∈ s.visited
  · rw [if_pos hev]
    exact ⟨⟨hB, hN⟩, fun z => le_refl _, fun v hv => hv, fun v _ => ⟨rfl, rfl⟩⟩
  rw [if_neg hev]
  cases heq : heappop s.pq with
  | none =>
    exact ⟨⟨hB, hN⟩, fun z => le_refl _, fun v hv => hv, fun v _ => ⟨rfl, rfl⟩⟩
  | some pr =>
    obtain ⟨⟨d, u⟩, rest⟩ := pr
    dsimp only
    by_cases hu : u ∈ s.visited
    · rw [if_pos hu]
      exact ⟨⟨ABase_stale hB heq hu, hN⟩, fun z => le_refl _,
        fun v hv => hv, fun v _ => ⟨rfl, rfl⟩⟩
    · rw [if_neg hu]
      have hB1 : ABase g start { s with pq := rest, visited := u :: s.visited } :=
        ABase_settle hB heq hu
      by_cases hue : u = e
      · rw [if_pos hue]
        refine ⟨⟨hB1, ?_⟩, fun z => le_refl _,
          fun v hv => List.mem_cons_of_mem _ hv, fun v _ => ⟨rfl, rfl⟩⟩
        intro v hv hve nw hnw
        rcases List.mem_cons.mp hv with rfl | hv2
        · exact absurd hue hve
        · exact hN v hv2 hve nw hnw
      · rw [if_neg hue]
        have hnbs : ∀ nw ∈ (({ s with pq := rest, visited := u :: s.visited } : AState).graph.get_neighbors u),
            nw ∈ g.get_neighbors u := by
          intro nw hnw
          rw [show (({ s with pq := rest, visited := u :: s.visited } : AState).graph) = g
            from hB.graph_eq] at hnw
          exact hnw
        have hws : ∀ nw ∈ (({ s with pq := rest, visited := u :: s.visited } : AState).graph.get_neighbors u),
            0 ≤ nw.2 := fun nw hnw => NonnegW_neighbors hW (hnbs nw hnw)
        obtain ⟨hB2, hvis2, hfroz2, hmono2, hfin2⟩ :=
          foldl_relaxA_pres hDC _ _ hB1 (List.mem_cons_self _ _) hnbs hws
        refine ⟨⟨hB2, ?_⟩, ?_, ?_, ?_⟩
        · intro v hv hve nw hnw
          rw [hvis2] at hv
          rcases List.mem_cons.mp hv with hvu | hv2
          · subst hvu
            exact hfin2 nw (hB.graph_eq.symm ▸ hnw)
          · have hold : s.g_score nw.1 ≠ ⊤ := hN v hv2 hve nw hnw
            have hle := hmono2 nw.1
            intro htop
            rw [htop] at hle
            exact hold (top_le_iff.mp hle)
        · exact fun z => hmono2 z
        · intro v hv
          rw [hvis2]
          exact List.mem_cons_of_mem _ hv
        · exact fun v hv => hfroz2 v (List.mem_cons_of_mem _ hv)

/-! ## The exit state of astar's loop -/

theorem aRun_inv {g : Graph} {start e : String} {hf : String → ℚ}
    (hDC : DestClosed g) (hW : NonnegW g) (hs : g.hasNode start = true) :
    ABase g start (aRun g hf start e) ∧ NbrsFinA g e (aRun g hf start e) := by
  rw [aRun]
  exact iterate_pres (astep hf e) (fun s => ABase g start s ∧ NbrsFinA g e s)
    (fun s hI => (astep_pres hDC hW hI.1 hI.2).1) (dfuel g) _
    ⟨ABase_init hf hs, NbrsFinA_init g hf e start⟩

theorem aRun_exit (g : Graph) (hf : String → ℚ) (start e : String) :
    isExitA e (aRun g hf start e) := aloop_exit g hf start e

theorem aRun_vis_of_fin {g : Graph} {start e : String} {hf : String → ℚ}
    (hDC : DestClosed g) (hW : NonnegW g) (hs : g.hasNode start = true)
    (hfin : (aRun g hf start e).g_score e ≠ ⊤) :
    e ∈ (aRun g hf start e).visited := by
  rcases aRun_exit g hf start e with hpq | hvis
  · by_contra hc
    obtain ⟨f, hfm⟩ := ((@aRun_inv g start e hf hDC hW hs).1).fresh e hc hfin
    rw [hpq] at hfm
    exact absurd hfm (List.not_mem_nil _)
  · exact hvis

theorem aRun_complete {g : Graph} {start e : String} {hf : String → ℚ}
    (hDC : DestClosed g) (hW : NonnegW g) (hs : g.hasNode start = true)
    (hreach : Reach g start e) : (aRun g hf start e).g_score e ≠ ⊤ := by
  obtain ⟨hB, hN⟩ := @aRun_inv g start e hf hDC hW hs
  rcases aRun_exit g hf start e with hpq | hvis
  · have key : ∀ z, Reach g start z →
        (aRun g hf start e).g_score e ≠ ⊤ ∨ (aRun g hf start e).g_score z ≠ ⊤ := by
      intro z hz
      induction hz with
      | refl =>
        right
        rw [hB.start_g]
        simp
      | @tail b c hab hbc ih =>
        rcases ih with h1 | h1
        · exact Or.inl h1
        · by_cases hbe : b = e
          · rw [hbe] at h1
            exact Or.inl h1
          · have hbvis : b ∈ (aRun g hf start e).visited := by
              by_contra hc2
              obtain ⟨f, hfm⟩ := hB.fresh b hc2 h1
              rw [hpq] at hfm
              exact absurd hfm (List.not_mem_nil _)
            obtain ⟨w, hE⟩ := hbc
            right
            exact hN b hbvis hbe (c, w) (mem_get_neighbors_iff.mpr hE)
    rcases key e hreach with h | h <;> exact h
  · exact hB.vis_fin e hvis

theorem aRun_path {g : Graph} {start e : String} {hf : String → ℚ}
    (hDC : DestClosed g) (hW : NonnegW g) (hs : g.hasNode start = true)
    (hfin : (aRun g hf start e).g_score e ≠ ⊤) :
    ∃ p : List String,
      reconstruct (aRun g hf start e).previous (g.nodes.length + 1) e [] = some p ∧
      p.head? = some start ∧ p.getLast? = some e ∧
      List.Chain' (Adj g) p ∧ p.Nodup := by
  obtain ⟨hB, hN⟩ := @aRun_inv g start e hf hDC hW hs
  have hvis := aRun_vis_of_fin hDC hW hs hfin
  obtain ⟨i, hi⟩ := List.mem_iff_get?.mp hvis
  have hlen : (aRun g hf start e).visited.length ≤ (g.nodes.length + 1) + i := by
    have := visited_le_nodes hB.nodup hB.vis_nodes
    omega
  have hnone : ∀ z ∈ (aRun g hf start e).visited,
      (aRun g hf start e).previous z = none → z = start := by
    intro z hz hzp
    by_contra hc
    exact hB.fin_prev z hc (hB.vis_fin z hz) hzp
  obtain ⟨chain, hrec, hhead, hlast, hchain, hnodup, -⟩ :=
    reconstruct_ok (aRun g hf start e).previous (aRun g hf start e).visited start
      hB.nodup hB.prev_idx hnone (g.nodes.length + 1) e [] i hi hlen
  refine ⟨chain.reverse, by simpa using hrec, ?_, ?_, ?_, ?_⟩
  · rw [List.head?_reverse]
    exact hlast
  · rw [List.getLast?_reverse]
    exact hhead
  · apply List.chain'_reverse.mpr
    apply List.Chain'.imp ?_ hchain
    intro a b hab
    obtain ⟨w, hE⟩ := hB.prev_edge a b hab
    exact ⟨w, hE⟩
  · exact List.nodup_reverse.mpr hnodup

/-- The heuristic astar actually uses: straight-line distance to the goal. -/
def heurTo (g : Graph) (endK : String) : String → ℚ :=
  fun node_id => g.euclidean_distance node_id endK

theorem astar_absent {g : Graph} {start e : String}
    (h : g.hasNode start = false ∨ g.hasNode e = false) :
    astar g start e = (none, ⊤) := by
  rw [astar, if_pos]
  rcases h with h | h <;> simp [h]

theorem astar_guard {g : Graph} {start e : String}
    (hs : g.hasNode start = true) (he : g.hasNode e = true) :
    astar g start e =
      (if (aRun g (heurTo g e) start e).g_score e = ⊤ then (none, ⊤)
       else (reconstruct (aRun g (heurTo g e) start e).previous
               (g.nodes.length + 1) e [],
             (aRun g (heurTo g e) start e).g_score e)) := by
  rw [astar, if_neg]
  · rfl
  · simp [hs, he]

theorem astar_noreach {g : Graph} {start e : String} (hDC : DestClosed g)
    (hW : NonnegW g) (hs : g.hasNode start = true) (he : g.hasNode e = true)
    (hnr : ¬ Reach g start e) : astar g start e = (none, ⊤) := by
  have hfin : (aRun g (heurTo g e) start e).g_score e = ⊤ := by
    by_contra hc
    exact hnr (((@aRun_inv g start e (heurTo g e) hDC hW hs).1).fin_reach e hc)
  rw [astar_guard hs he, if_pos hfin]

theorem astar_reach {g : Graph} {start e : String} (hDC : DestClosed g)
    (hW : NonnegW g) (hs : g.hasNode start = true) (he : g.hasNode e = true)
    (hreach : Reach g start e) :
    ∃ p : List String,
      astar g start e = (some p, (aRun g (heurTo g e) start e).g_score e) ∧
      (aRun g (heurTo g e) start e).g_score e ≠ ⊤ ∧
      p.head? = some start ∧ p.getLast? = some e ∧
      List.Chain' (Adj g) p ∧ p.Nodup := by
  have hfin := @aRun_complete g start e (heurTo g e) hDC hW hs hreach
  obtain ⟨p, hrec, h1, h2, h3, h4⟩ := aRun_path hDC hW hs hfin
  refine ⟨p, ?_, hfin, h1, h2, h3, h4⟩
  rw [astar_guard hs he, if_neg hfin, hrec]

theorem astar_found_reach {g : Graph} {start e : String} (hDC : DestClosed g)
    (hW : NonnegW g) (hs : g.hasNode start = true) (he : g.hasNode e = true)
    (hfound : (astar g start e).2 ≠ ⊤) : Reach g start e := by
  by_cases hfin : (aRun g (heurTo g e) start e).g_score e = ⊤
  · rw [astar_guard hs he, if_pos hfin] at hfound
    exact absurd rfl hfound
  · exact ((@aRun_inv g start e (heurTo g e) hDC hW hs).1).fin_reach e hfin

theorem astar_none_iff {g : Graph} {start e : String} (hDC : DestClosed g)
    (hW : NonnegW g) :
    (astar g start e).2 = ⊤ ↔ (astar g start e).1 = none := by
  by_cases hs : g.hasNode start = true
  · by_cases he : g.hasNode e = true
    · by_cases hfin : (aRun g (heurTo g e) start e).g_score e = ⊤
      · rw [astar_guard hs he, if_pos hfin]
        simp
      · obtain ⟨p, hrec, -, -, -, -⟩ := aRun_path hDC hW hs hfin
        rw [astar_guard hs he, if_neg hfin, hrec]
        simp [hfin]
    · rw [astar_absent (Or.inr (by simpa using he))]
      simp
  · rw [astar_absent (Or.inl (by simpa using hs))]
    simp

theorem dijkstra_none_iff {g : Graph} {start e : String} (hDC : DestClosed g)
    (hW : NonnegW g) :
    (dijkstra g start e).2 = ⊤ ↔ (dijkstra g start e).1 = none := by
  by_cases hs : g.hasNode start = true
  · by_cases he : g.hasNode e = true
    · by_cases hfin : (dRun g start e).dist e = ⊤
      · rw [dijkstra_guard hs he, if_pos hfin]
        simp
      · obtain ⟨p, hrec, -, -, -, -⟩ :=
          dRun_path hDC hW hs hfin
        rw [dijkstra_guard hs he, if_neg hfin, hrec]
        simp [hfin]
    · rw [dijkstra_absent (Or.inr (by simpa using he))]
      simp
  · rw [dijkstra_absent (Or.inl (by simpa using hs))]
    simp

/-! ## The degenerate search `start = end` -/

theorem dstep_self (g : Graph) (k : String) :
    dstep k (initD g k) =
      { graph := g, pq := [], dist := setF (fun _ => ⊤) k (0 : Cost),
        previous := fun _ => none, visited := [k] } := by
  simp [dstep, initD, heappop, findMin]

theorem dRun_self (g : Graph) (k : String) :
    dRun g k k =
      { graph := g, pq := [], dist := setF (fun _ => ⊤) k (0 : Cost),
        previous := fun _ => none, visited := [k] } := by
  rw [dRun, show dfuel g = g.totalEdges + 1 from rfl,
    Function.iterate_succ_apply, dstep_self]
  exact Function.iterate_fixed
    (dstep_exit_fixed (Or.inr (List.mem_cons_self _ _))) _

theorem dijkstra_self {g : Graph} {k : String} (hk : g.hasNode k = true) :
    dijkstra g k k = (some [k], 0) := by
  rw [dijkstra_guard hk hk, dRun_self]
  dsimp only
  rw [setF_same]
  rw [if_neg (by simp : ¬((0 : Cost) = ⊤))]
  rw [reconstruct]
  rfl

theorem astep_self (g : Graph) (hf : String → ℚ) (k : String) :
    astep hf k (initA g hf k) =
      { graph := g, pq := [], g_score := setF (fun _ => ⊤) k (0 : Cost),
        f_score := setF (fun _ => ⊤) k ((hf k : ℚ) : Cost),
        previous := fun _ => none, visited := [k] } := by
  simp [astep, initA, heappop, findMin]

theorem aRun_self (g : Graph) (hf : String → ℚ) (k : String) :
    aRun g hf k k =
      { graph := g, pq := [], g_score := setF (fun _ => ⊤) k (0 : Cost),
        f_score := setF (fun _ => ⊤) k ((hf k : ℚ) : Cost),
        previous := fun _ => none, visited := [k] } := by
  rw [aRun, show dfuel g = g.totalEdges + 1 from rfl,
    Function.iterate_succ_apply, astep_self]
  exact Function.iterate_fixed
    (astep_exit_fixed (Or.inr (List.mem_cons_self _ _))) _

/-! ## Invariants and monotonicity at every loop iterate -/

theorem dIter_inv {g : Graph} {start e : String} (hDC : DestClosed g)
    (hW : NonnegW g) (hs : g.hasNode start = true) (n : Nat) :
    DBase g start ((dstep e)^[n] (initD g start)) ∧
    NbrsFin g e ((dstep e)^[n] (initD g start)) :=
  iterate_pres (dstep e) (fun s => DBase g start s ∧ NbrsFin g e s)
    (fun _ hI => (dstep_pres hDC hW hI.1 hI.2).1) n _
    ⟨DBase_init hs, NbrsFin_init g e start⟩

theorem aIter_inv {g : Graph} {start e : String} {hf : String → ℚ}
    (hDC : DestClosed g) (hW : NonnegW g) (hs : g.hasNode start = true) (n : Nat) :
    ABase g start ((astep hf e)^[n] (initA g hf start)) ∧
    NbrsFinA g e ((astep hf e)^[n] (initA g hf start)) :=
  iterate_pres (astep hf e) (fun s => ABase g start s ∧ NbrsFinA g e s)
    (fun _ hI => (astep_pres hDC hW hI.1 hI.2).1) n _
    ⟨ABase_init hf hs, NbrsFinA_init g hf e start⟩

/-- Monotonicity between any two iterates of dijkstra's loop: distances only
decrease, the settled set only grows, and a node settled at step `k` keeps
its distance and predecessor at every later step. -/
theorem dIter_mono {g : Graph} {start e : String} (hDC : DestClosed g)
    (hW : NonnegW g) (hs : g.hasNode start = true) :
    ∀ k m, k ≤ m →
      (∀ z, ((dstep e)^[m] (initD g start)).dist z ≤
        ((dstep e)^[k] (initD g start)).dist z) ∧
      (∀ v ∈ ((dstep e)^[k] (initD g start)).visited,
        v ∈ ((dstep e)^[m] (initD g start)).visited ∧
        ((dstep e)^[m] (initD g start)).dist v =
          ((dstep e)^[k] (initD g start)).dist v ∧
        ((dstep e)^[m] (initD g start)).previous v =
          ((dstep e)^[k] (initD g start)).previous v) := by
  intro k m hkm
  induction m with
  | zero =>
    have hk0 : k = 0 := by omega
    subst hk0
    exact ⟨fun z => le_refl _, fun v hv => ⟨hv, rfl, rfl⟩⟩
  | succ m ih =>
    by_cases hk : k = m + 1
    · subst hk
      exact ⟨fun z => le_refl _, fun v hv => ⟨hv, rfl, rfl⟩⟩
    · have hkm2 : k ≤ m := by omega
      obtain ⟨hmono, hfroz⟩ := ih hkm2
      obtain ⟨hI, hmono1, hvis1, hfroz1⟩ :=
        dstep_pres hDC hW (dIter_inv hDC hW hs m).1 (dIter_inv hDC hW hs m).2
          (e := e)
      rw [Function.iterate_succ_apply']
      refine ⟨fun z => le_trans (hmono1 z) (hmono z), ?_⟩
      intro v hv
      obtain ⟨hv2, hd2, hp2⟩ := hfroz v hv
      obtain ⟨hd1, hp1⟩ := hfroz1 v hv2
      exact ⟨hvis1 v hv2, by rw [hd1, hd2], by rw [hp1, hp2]⟩

/-- Monotonicity between any two iterates of astar's loop. -/
theorem aIter_mono {g : Graph} {start e : String} {hf : String → ℚ}
    (hDC : DestClosed g) (hW : NonnegW g) (hs : g.hasNode start = true) :
    ∀ k m, k ≤ m →
      (∀ z, ((astep hf e)^[m] (initA g hf start)).g_score z ≤
        ((astep hf e)^[k] (initA g hf start)).g_score z) ∧
      (∀ v ∈ ((astep hf e)^[k] (initA g hf start)).visited,
        v ∈ ((astep hf e)^[m] (initA g hf start)).visited ∧
        ((astep hf e)^[m] (initA g hf start)).g_score v =
          ((astep hf e)^[k] (initA g hf start)).g_score v ∧
        ((astep hf e)^[m] (initA g hf start)).previous v =
          ((astep hf e)^[k] (initA g hf start)).previous v) := by
  intro k m hkm
  induction m with
  | zero =>
    have hk0 : k = 0 := by omega
    subst hk0
    exact ⟨fun z => le_refl _, fun v hv => ⟨hv, rfl, rfl⟩⟩
  | succ m ih =>
    by_cases hk : k = m + 1
    · subst hk
      exact ⟨fun z => le_refl _, fun v hv => ⟨hv, rfl, rfl⟩⟩
    · have hkm2 : k ≤ m := by omega
      obtain ⟨hmono, hfroz⟩ := ih hkm2
      obtain ⟨hI, hmono1, hvis1, hfroz1⟩ :=
        astep_pres hDC hW (aIter_inv hDC hW hs m).1 (aIter_inv hDC hW hs m).2
          (e := e)
      rw [Function.iterate_succ_apply']
      refine ⟨fun z => le_trans (hmono1 z) (hmono z), ?_⟩
      intro v hv
      obtain ⟨hv2, hd2, hp2⟩ := hfroz v hv
      obtain ⟨hd1, hp1⟩ := hfroz1 v hv2
      exact ⟨hvis1 v hv2, by rw [hd1, hd2], by rw [hp1, hp2]⟩

theorem dRun_nodup (g : Graph) (start e : String) :
    (dRun g start e).visited.Nodup := by
  rw [dRun]
  exact iterate_pres (dstep e) (fun s => s.visited.Nodup)
    (fun s h => dstep_nodup h) (dfuel g) _ List.nodup_nil

theorem aRun_nodup (g : Graph) (hf : String → ℚ) (start e : String) :
    (aRun g hf start e).visited.Nodup := by
  rw [aRun]
  exact iterate_pres (astep hf e) (fun s => s.visited.Nodup)
    (fun s h => astep_nodup h) (dfuel g) _ List.nodup_nil

theorem astar_self {g : Graph} {k : String} (hk : g.hasNode k = true) :
    astar g k k = (some [k], 0) := by
  rw [astar_guard hk hk, aRun_self]
  dsimp only
  rw [setF_same]
  rw [if_neg (by simp : ¬((0 : Cost) = ⊤))]
  rw [reconstruct]
  rfl

/-! ## Claims -/

/-- Claim C1, as stated, is false: on `lineCE` the Euclidean heuristic
overestimates the true remaining cost (edge weights undercut straight-line
distances), and `astar` returns total cost 3 where `dijkstra` returns the
optimal 2. -/
theorem C1_counterexample :
    (dijkstra lineCE "S" "G").2 ≠ (astar lineCE "S" "G").2 := by
  with_unfolding_all decide

/-- Claim C1 (amended): `dijkstra` and `astar` are not guaranteed to return
the same total cost on every graph, because the Euclidean heuristic need not
be admissible; the two costs do agree whenever the start or end key is
absent, whenever start = end is a present key, whenever no sequence of edges
connects start to end in a closed graph with non-negative weights, and on
the spec's 4-node diamond scenario. -/
theorem C1_amended :
    (∀ (g : Graph) (s e : String), (g.hasNode s = false ∨ g.hasNode e = false) →
      (dijkstra g s e).2 = (astar g s e).2) ∧
    (∀ (g : Graph) (k : String), g.hasNode k = true →
      (dijkstra g k k).2 = (astar g k k).2) ∧
    (∀ (g : Graph) (s e : String), DestClosed g → NonnegW g →
      g.hasNode s = true → g.hasNode e = true → ¬ Reach g s e →
      (dijkstra g s e).2 = (astar g s e).2) ∧
    (dijkstra diamond "A" "D").2 = (astar diamond "A" "D").2 := by
  refine ⟨?_, ?_, ?_, ?_⟩
  · intro g s e h
    rw [dijkstra_absent h, astar_absent h]
  · intro g k hk
    rw [dijkstra_self hk, astar_self hk]
  · intro g s e hDC hW hs he hnr
    rw [dijkstra_noreach hDC hW hs he hnr, astar_noreach hDC hW hs he hnr]
  · with_unfolding_all decide

/-- Witness for the amended claim C1 at a concrete input: on the diamond
graph the degenerate search from "A" to itself yields equal costs. -/
theorem C1_amended_witness :
    (dijkstra diamond "A" "A").2 = (astar diamond "A" "A").2 :=
  C1_amended.2.1 diamond "A" (by with_unfolding_all decide)

/-- Claim C2: for both searches, an absent start or end key, and likewise an
unreachable goal, produce the sentinel `(none, ∞)`; conversely, present keys
with a connecting sequence of edges produce a non-`none` path with finite
cost; and the returned cost is `∞` exactly when the returned path is `none`
(all under the documented non-negative-weight precondition, on graphs whose
stored edges stay inside the node map). -/
theorem C2_sentinel (g : Graph) (hDC : DestClosed g) (hW : NonnegW g)
    (s e : String) :
    ((g.hasNode s = false ∨ g.hasNode e = false) →
      dijkstra g s e = (none, ⊤) ∧ astar g s e = (none, ⊤)) ∧
    (g.hasNode s = true → g.hasNode e = true → ¬ Reach g s e →
      dijkstra g s e = (none, ⊤) ∧ astar g s e = (none, ⊤)) ∧
    (g.hasNode s = true → g.hasNode e = true → Reach g s e →
      (dijkstra g s e).1 ≠ none ∧ (dijkstra g s e).2 ≠ ⊤ ∧
      (astar g s e).1 ≠ none ∧ (astar g s e).2 ≠ ⊤) ∧
    ((dijkstra g s e).2 = ⊤ ↔ (dijkstra g s e).1 = none) ∧
    ((astar g s e).2 = ⊤ ↔ (astar g s e).1 = none) := by
  refine ⟨?_, ?_, ?_, dijkstra_none_iff hDC hW, astar_none_iff hDC hW⟩
  · intro h
    exact ⟨dijkstra_absent h, astar_absent h⟩
  · intro hs he hnr
    exact ⟨dijkstra_noreach hDC hW hs he hnr, astar_noreach hDC hW hs he hnr⟩
  · intro hs he hr
    obtain ⟨p, heq, hfin, -, -, -, -⟩ := dijkstra_reach hDC hW hs he hr
    obtain ⟨q, heq2, hfin2, -, -, -, -⟩ := astar_reach hDC hW hs he hr
    refine ⟨?_, ?_, ?_, ?_⟩
    · rw [heq]
      simp
    · rw [heq]
      exact hfin
    · rw [heq2]
      simp
    · rw [heq2]
      exact hfin2

/-- Witness for claim C2 on the diamond graph: "A" and "D" are connected, and
both searches report a real path with finite cost. -/
theorem C2_sentinel_witness :
    (dijkstra diamond "A" "D").1 ≠ none ∧ (dijkstra diamond "A" "D").2 ≠ ⊤ ∧
    (astar diamond "A" "D").1 ≠ none ∧ (astar diamond "A" "D").2 ≠ ⊤ :=
  (C2_sentinel diamond (by with_unfolding_all decide)
      (by with_unfolding_all decide) "A" "D").2.2.1
    (by with_unfolding_all decide) (by with_unfolding_all decide)
    (Relation.ReflTransGen.tail
      (Relation.ReflTransGen.single
        ⟨1, (@mem_get_neighbors_iff diamond "A" ("B", 1)).mp
          (by with_unfolding_all decide)⟩)
      ⟨3, (@mem_get_neighbors_iff diamond "B" ("D", 3)).mp
        (by with_unfolding_all decide)⟩)

/-- Claim C3: for every graph and every present key `k`, both searches on
`(k, k)` return the one-node path `[k]` with cost exactly 0. -/
theorem C3_self (g : Graph) (k : String) (hk : g.hasNode k = true) :
    dijkstra g k k = (some [k], 0) ∧ astar g k k = (some [k], 0) :=
  ⟨dijkstra_self hk, astar_self hk⟩

/-- Witness for claim C3 on the diamond graph at node "B". -/
theorem C3_self_witness :
    dijkstra diamond "B" "B" = (some ["B"], 0) ∧
    astar diamond "B" "B" = (some ["B"], 0) :=
  C3_self diamond "B" (by with_unfolding_all decide)

/-- Claim C4: on the spec's 4-node diamond, both searches from "A" to "D"
return exactly the path ["A", "C", "D"] with total cost 3. -/
theorem C4_diamond :
    dijkstra diamond "A" "D" = (some ["A", "C", "D"], ((3 : ℚ) : Cost)) ∧
    astar diamond "A" "D" = (some ["A", "C", "D"], ((3 : ℚ) : Cost)) := by
  constructor <;> with_unfolding_all decide

/-- Claim C5: in both searches, with non-negative weights on a closed graph,
between any iterate `k` of the main loop and any later iterate `m` the
recorded best-known costs only decrease, the settled set only grows, and a
settled node keeps its recorded cost and predecessor for the remainder of
the call. -/
theorem C5_invariants (g : Graph) (hDC : DestClosed g) (hW : NonnegW g)
    (start e : String) (hs : g.hasNode start = true) (k m : Nat) (hkm : k ≤ m) :
    ((∀ z, ((dstep e)^[m] (initD g start)).dist z ≤
        ((dstep e)^[k] (initD g start)).dist z) ∧
     (∀ v ∈ ((dstep e)^[k] (initD g start)).visited,
        v ∈ ((dstep e)^[m] (initD g start)).visited ∧
        ((dstep e)^[m] (initD g start)).dist v =
          ((dstep e)^[k] (initD g start)).dist v ∧
        ((dstep e)^[m] (initD g start)).previous v =
          ((dstep e)^[k] (initD g start)).previous v)) ∧
    ((∀ z, ((astep (heurTo g e) e)^[m] (initA g (heurTo g e) start)).g_score z ≤
        ((astep (heurTo g e) e)^[k] (initA g (heurTo g e) start)).g_score z) ∧
     (∀ v ∈ ((astep (heurTo g e) e)^[k] (initA g (heurTo g e) start)).visited,
        v ∈ ((astep (heurTo g e) e)^[m] (initA g (heurTo g e) start)).visited ∧
        ((astep (heurTo g e) e)^[m] (initA g (heurTo g e) start)).g_score v =
          ((astep (heurTo g e) e)^[k] (initA g (heurTo g e) start)).g_score v ∧
        ((astep (heurTo g e) e)^[m] (initA g (heurTo g e) start)).previous v =
          ((astep (heurTo g e) e)^[k] (initA g (heurTo g e) start)).previous v)) :=
  ⟨dIter_mono hDC hW hs k m hkm, aIter_mono hDC hW hs k m hkm⟩

/-- Witness for claim C5 on the diamond graph: across the first loop
iteration of the dijkstra search from "A" to "D", node "B"'s recorded cost
does not increase. -/
theorem C5_invariants_witness :
    ((dstep "D")^[1] (initD diamond "A")).dist "B" ≤
      ((dstep "D")^[0] (initD diamond "A")).dist "B" :=
  (C5_invariants diamond (by with_unfolding_all decide)
    (by with_unfolding_all decide) "A" "D" (by with_unfolding_all decide)
    0 1 (by omega)).1.1 "B"

/-- Claim C6: a graph built solely through `add_node` / `add_edge` calls
stores only edges whose destination key is a key of the node map, so every
neighbor key produced by `get_neighbors` is a node of the graph and the
working-map lookups of both searches cannot hit an unknown key. -/
theorem C6_closure (ops : List BuildOp) :
    DestClosed (buildGraph ops) ∧
    ∀ k : String, ∀ nw ∈ (buildGraph ops).get_neighbors k,
      (buildGraph ops).hasNode nw.1 = true := by
  obtain ⟨hS, hD⟩ := buildGraph_invs ops
  exact ⟨hD, fun k nw hnw => DestClosed_neighbors hD hnw⟩

/-- Claim C7: for every graph and any keys, both search loops reach an exit
state (empty queue, or goal settled) within `dfuel` iterations — one
iteration per queue entry, one possible push per stored edge — and the
settled list never holds a node twice (each node is expanded at most once). -/
theorem C7_termination (g : Graph) (s e : String) :
    (((dRun g s e).pq = [] ∨ e ∈ (dRun g s e).visited) ∧
      (dRun g s e).visited.Nodup) ∧
    (((aRun g (heurTo g e) s e).pq = [] ∨ e ∈ (aRun g (heurTo g e) s e).visited) ∧
      (aRun g (heurTo g e) s e).visited.Nodup) :=
  ⟨⟨dRun_exit g s e, dRun_nodup g s e⟩,
   ⟨aRun_exit g (heurTo g e) s e, aRun_nodup g (heurTo g e) s e⟩⟩

/-- Claim C8: whenever either search returns a non-`none` path (on a closed,
non-negative-weight graph), that path is a genuine walk of stored edges: it
starts at `s`, ends at `e`, every consecutive pair is joined by a stored
edge, and the path repeats no node (the reconstruction chain is acyclic and
ends at the start). -/
theorem C8_path_valid (g : Graph) (hDC : DestClosed g) (hW : NonnegW g)
    (s e : String) :
    (∀ p, (dijkstra g s e).1 = some p →
      p.head? = some s ∧ p.getLast? = some e ∧
      List.Chain' (Adj g) p ∧ p.Nodup) ∧
    (∀ p, (astar g s e).1 = some p →
      p.head? = some s ∧ p.getLast? = some e ∧
      List.Chain' (Adj g) p ∧ p.Nodup) := by
  constructor
  · intro p hp
    by_cases hs : g.hasNode s = true
    · by_cases he : g.hasNode e = true
      · by_cases hfin : (dRun g s e).dist e = ⊤
        · rw [dijkstra_guard hs he, if_pos hfin] at hp
          simp at hp
        · obtain ⟨p0, hrec, h1, h2, h3, h4⟩ := dRun_path hDC hW hs hfin
          rw [dijkstra_guard hs he, if_neg hfin] at hp
          dsimp only at hp
          rw [hrec] at hp
          rw [← Option.some.inj hp]
          exact ⟨h1, h2, h3, h4⟩
      · rw [dijkstra_absent (Or.inr (by simpa using he))] at hp
        simp at hp
    · rw [dijkstra_absent (Or.inl (by simpa using hs))] at hp
      simp at hp
  · intro p hp
    by_cases hs : g.hasNode s = true
    · by_cases he : g.hasNode e = true
      · by_cases hfin : (aRun g (heurTo g e) s e).g_score e = ⊤
        · rw [astar_guard hs he, if_pos hfin] at hp
          simp at hp
        · obtain ⟨p0, hrec, h1, h2, h3, h4⟩ := aRun_path hDC hW hs hfin
          rw [astar_guard hs he, if_neg hfin] at hp
          dsimp only at hp
          rw [hrec] at hp
          rw [← Option.some.inj hp]
          exact ⟨h1, h2, h3, h4⟩
      · rw [astar_absent (Or.inr (by simpa using he))] at hp
        simp at hp
    · rw [astar_absent (Or.inl (by simpa using hs))] at hp
      simp at hp

/-- Witness for claim C8: the diamond path returned by dijkstra is a genuine
walk from "A" to "D" without repeated nodes. -/
theorem C8_path_valid_witness :
    ["A", "C", "D"].head? = some "A" ∧
    ["A", "C", "D"].getLast? = some "D" ∧
    List.Chain' (Adj diamond) ["A", "C", "D"] ∧
    (["A", "C", "D"] : List String).Nodup :=
  (C8_path_valid diamond (by with_unfolding_all decide)
    (by with_unfolding_all decide) "A" "D").1 ["A", "C", "D"]
    (by with_unfolding_all decide)

/-- Claim C9: neither search mutates the graph: the graph component carried
through every loop iteration is still the input graph (node map and edge map
included) when the loop exits. -/
theorem C9_no_mutation (g : Graph) (s e : String) :
    (dRun g s e).graph = g ∧ (aRun g (heurTo g e) s e).graph = g := by
  constructor
  · rw [dRun, iterate_dstep_graph]
    rfl
  · rw [aRun, iterate_astep_graph]
    rfl

/-- Claim C10: re-adding an existing node key returns the node stored at the
first insertion and leaves the graph unchanged — the new coordinates and
display name are discarded. -/
theorem C10_add_node_idem (g : Graph) (k : String) (x y : ℚ) (n : String)
    (nd : Node) (h : lookupA k g.nodes = some nd) :
    g.add_node k x y n = (nd, g) :=
  add_node_present x y n h

/-- One-node graph used to witness claim C10. -/
def gOne : Graph := (Graph.empty.add_node "A" 0 0 "Loc").2

/-- Witness for claim C10: re-adding "A" with different coordinates and name
returns the original node and leaves `gOne` unchanged. -/
theorem C10_add_node_idem_witness :
    gOne.add_node "A" 5 7 "Other" = (⟨"A", 0, 0, "Loc"⟩, gOne) :=
  C10_add_node_idem gOne "A" 5 7 "Other" ⟨"A", 0, 0, "Loc"⟩
    (by with_unfolding_all decide)

end Nav
